import Mathlib

/-!
Verification development for the declaration-tree flattening engine in
`external/build/lib/dts-parse.js` (the `Transform` class).  The JavaScript
source is shallowly embedded: pure functions become Lean functions, the
mutable run state (`allByName`, `pendingReferences`, `indexForReferences`)
becomes an explicit state record threaded through the walk, fallible code
returns `Except`, and the recursive walk takes a fuel parameter as its
termination measure (the JavaScript recursion is structural on the input
tree; any fuel at least as large as the tree depth behaves identically,
and all general theorems below hold for every fuel value).
-/

set_option linter.unusedVariables false

namespace DtsParse

/-- ReflectionKind numeric constants from the typedoc library used by the
source (`typedoc.ReflectionKind`).  Only the bit patterns matter for the
source's checks: `kind === Namespace` and `kind & VariableOrProperty`. -/
def kindNamespace : Nat := 4

/-- ReflectionKind.Variable (32) ||| ReflectionKind.Property (1024). -/
def kindVariableOrProperty : Nat := 1056

/-- ReflectionKind.Property. -/
def kindProperty : Nat := 1024

/-- ReflectionKind.Parameter. -/
def kindParameter : Nat := 32768

/-- ReflectionKind.TypeAlias. -/
def kindTypeAlias : Nat := 4194304

/-- ReflectionKind.Method. -/
def kindMethod : Nat := 2048

/-- JavaScript `String.prototype.trim`, modelled on the char list. -/
def jsTrim (s : String) : String :=
  ⟨((s.data.dropWhile Char.isWhitespace).reverse.dropWhile Char.isWhitespace).reverse⟩

/-- JavaScript `s.substr(i)`: the suffix starting at index `i` (empty when
`i` is past the end). -/
def substrFrom (s : String) (i : Nat) : String := ⟨s.data.drop i⟩

/-- JavaScript `s.replace(/\./g, '-')`. -/
def dotsToDashes (s : String) : String :=
  ⟨s.data.map (fun c => if c = '.' then '-' else c)⟩

/-- JavaScript `s.replace(/\./g, '_')`. -/
def dotsToUnderscores (s : String) : String :=
  ⟨s.data.map (fun c => if c = '.' then '_' else c)⟩

/-- JavaScript `s.replace(/^chrome\./, '')`: removes a single leading
"chrome." occurrence when present. -/
def stripChrome (s : String) : String :=
  if s.data.take 7 = "chrome.".data then ⟨s.data.drop 7⟩ else s

/-- JavaScript `text.split(' ')[0]`: the leading run of characters up to
the first space character. -/
def firstSpaceToken (s : String) : String := ⟨s.data.takeWhile (fun c => c ≠ ' ')⟩

/-- JavaScript `raw.replace(/\\_/g, '_')`: undo the underscore escape,
left to right, non-overlapping. -/
def undoEscapesL : List Char → List Char
  | '\\' :: '_' :: rest => '_' :: undoEscapesL rest
  | c :: rest => c :: undoEscapesL rest
  | [] => []

/-- String wrapper for `undoEscapesL`. -/
def undoEscapes (s : String) : String := ⟨undoEscapesL s.data⟩

/-- Lookup in a JavaScript object / `Map` modelled as an assignment log:
the latest assignment to the key wins. -/
def jsGetS {α : Type} (m : List (String × α)) (k : String) : Option α :=
  (m.reverse.find? (fun e => e.1 == k)).map (·.2)

/-- Lookup by integer key (for the `Map<number, _>` id index). -/
def jsGetI {α : Type} (m : List (Int × α)) (k : Int) : Option α :=
  (m.reverse.find? (fun e => e.1 == k)).map (·.2)

/-- One `Map.set` / object-property assignment with in-place value update:
an existing key keeps its original position and receives the new value,
a new key is appended. -/
def mapSetS {α : Type} (m : List (String × α)) (k : String) (v : α) : List (String × α) :=
  if m.any (fun e => e.1 == k) then m.map (fun e => if e.1 == k then (k, v) else e)
  else m ++ [(k, v)]

/-- JavaScript `Object.values` / `Map.values` of an assignment log:
values in first-assignment key order, each key carrying its latest
value. -/
def jsValuesS {α : Type} (m : List (String × α)) : List α :=
  (m.foldl (fun acc e => mapSetS acc e.1 e.2) []).map (·.2)

/-- One `(tag, text)` documentation tag. -/
structure CommentTag where
  tag : String
  text : String
  deriving DecidableEq, Repr

/-- A typedoc comment: `shortText`, `text`, `returns` and the ordered tag
list, each optional. -/
structure Comment where
  shortText : Option String
  text : Option String
  returns : Option String
  tags : Option (List CommentTag)
  deriving DecidableEq, Repr

/-- Declaration flags; only `isOptional` is read by the source (an absent
flag is falsy, so a plain Bool is faithful). -/
structure Flags where
  isOptional : Bool
  deriving DecidableEq, Repr

mutual

/-- The tagged `type` field of a declaration node, one variant per
typedoc type kind that the source inspects. -/
inductive SomeType : Type where
  | reference (id : Option Int) (name : String) (typeArguments : Option (List SomeType))
  | reflection (declaration : Option DeclNode)
  | unionT (types : List SomeType)
  | intersectionT (types : List SomeType)
  | arrayT (elementType : SomeType)
  | tupleT (elements : List SomeType)
  | intrinsic (name : String)

/-- An input declaration node (typedoc `DeclarationReflection`), restricted
to the fields the source reads. -/
inductive DeclNode : Type where
  | mk (id : Int) (name : String) (kind : Nat) (children : Option (List DeclNode))
       (type : Option SomeType) (signatures : Option (List SigNode))
       (comment : Option Comment) (flags : Flags)

/-- A call signature: parameter list, return type, comment (the fields the
source reads). -/
inductive SigNode : Type where
  | mk (parameters : Option (List DeclNode)) (type : Option SomeType) (comment : Option Comment)

end

/-- Node id. -/
def DeclNode.id : DeclNode → Int
  | ⟨i, _, _, _, _, _, _, _⟩ => i

/-- Node name. -/
def DeclNode.name : DeclNode → String
  | ⟨_, n, _, _, _, _, _, _⟩ => n

/-- Node kind bits. -/
def DeclNode.kind : DeclNode → Nat
  | ⟨_, _, k, _, _, _, _, _⟩ => k

/-- Node children (absent or ordered list). -/
def DeclNode.children : DeclNode → Option (List DeclNode)
  | ⟨_, _, _, c, _, _, _, _⟩ => c

/-- Node type. -/
def DeclNode.type : DeclNode → Option SomeType
  | ⟨_, _, _, _, t, _, _, _⟩ => t

/-- Node call signatures. -/
def DeclNode.signatures : DeclNode → Option (List SigNode)
  | ⟨_, _, _, _, _, s, _, _⟩ => s

/-- Node comment. -/
def DeclNode.comment : DeclNode → Option Comment
  | ⟨_, _, _, _, _, _, c, _⟩ => c

/-- Node flags. -/
def DeclNode.flags : DeclNode → Flags
  | ⟨_, _, _, _, _, _, _, f⟩ => f

/-- Signature parameters. -/
def SigNode.parameters : SigNode → Option (List DeclNode)
  | ⟨p, _, _⟩ => p

/-- Signature return type. -/
def SigNode.type : SigNode → Option SomeType
  | ⟨_, t, _⟩ => t

/-- Signature comment. -/
def SigNode.comment : SigNode → Option Comment
  | ⟨_, _, c⟩ => c

/-- The event marker type names recognized by the source
(`chromeEventRefTypes`). -/
def chromeEventRefTypes : List String := ["CustomChromeEvent", "events.Event", "Event"]

/-- The `_event` marker attached to an upgraded event node: `{}` for
callback-style events, `{conditions, actions}` for declarative ones. -/
structure EventInfo where
  declarative : Option (List SomeType × List SomeType)

/-- Result of `upgradeEventNode`: the child nodes handed back for walking,
the `_event` info, and whether `_method = {parameters: children}` was set
(true on the two callback forms; the parameters array and the returned
children are the same array in the source). -/
structure UpgradeOut where
  children : List DeclNode
  event : EventInfo
  setsMethod : Bool

/-- Helper for the `CustomChromeEvent` branch:
`arg.declaration?.signatures?.[0]?.parameters ?? []`. -/
def cceParams : SomeType → List DeclNode
  | SomeType.reflection (some d) => ((d.signatures.bind List.head?).bind SigNode.parameters).getD []
  | _ => []

/-- `ensureArrayOfType` from the source: a union contributes the ordered
list of its member types, any other type is a one-element list. -/
def ensureArrayOfType : SomeType → List SomeType
  | SomeType.unionT ts => ts
  | t => [t]

/-- The synthetic TypeAlias wrapper node built for each declarative-event
condition/action member (`id: -1, name: '_declarative-fake'`). -/
def mkDeclarativeFake (t : SomeType) : DeclNode :=
  ⟨-1, "_declarative-fake", kindTypeAlias, none, some t, none, none, ⟨false⟩⟩

/-- The synthetic single `callback` parameter of the default callback form
(`id: -1, name: 'callback'`, type `referenceType.typeArguments?.[0]`). -/
def mkCallbackParam (t : Option SomeType) : DeclNode :=
  ⟨-1, "callback", kindParameter, none, t, none, none, ⟨false⟩⟩

/-- Whether an Except value is an error. -/
def exceptIsError {ε α : Type} : Except ε α → Bool
  | Except.error _ => true
  | Except.ok _ => false

/-- `Transform.upgradeEventNode`.  The node's `type` is read as a reference
(the walker only calls this for references to the recognized event
markers); a non-reference type has no `typeArguments` property, so the
first-argument check fails and the call throws, as in JavaScript. -/
def upgradeEventNode (node : DeclNode) : Except String UpgradeOut :=
  match node.type with
  | some (SomeType.reference _ rname targs) =>
    match targs.bind List.head? with
    | none => Except.error ("got reference to " ++ rname ++ " without argument")
    | some firstArgument =>
      if rname = "CustomChromeEvent" then
        Except.ok ⟨cceParams firstArgument, ⟨none⟩, true⟩
      else
        match firstArgument with
        | SomeType.intrinsic iname =>
          if iname ≠ "never" then
            Except.error "unexpected first argument for declarative event"
          else
            match (targs.getD []).get? 1, (targs.getD []).get? 2 with
            | some c, some a =>
              Except.ok ⟨(ensureArrayOfType c ++ ensureArrayOfType a).map mkDeclarativeFake,
                         ⟨some (ensureArrayOfType c, ensureArrayOfType a)⟩, false⟩
            | _, _ => Except.error "declarative event missing args"
        | _ => Except.ok ⟨[mkCallbackParam (targs.bind List.head?)], ⟨none⟩, true⟩
  | _ => Except.error "got reference without argument"

/-- One `{value, description}` pair extracted from a `chrome-enum` tag. -/
structure EnumPair where
  value : String
  description : String
  deriving DecidableEq, Repr

/-- Model of `JSON.parse` restricted to the plain double-quoted string
literals that `chrome-enum` values use (no inner quote or backslash, which
is the shape the source's own comment documents); every other input is
modelled as a parse error. -/
def jsonParseString (raw : String) : Except String String :=
  match raw.data with
  | '"' :: rest =>
    if rest ≠ [] ∧ rest.getLast? = some '"' ∧
        rest.dropLast.all (fun c => c ≠ '"' ∧ c ≠ '\\') then
      Except.ok ⟨rest.dropLast⟩
    else Except.error "JSON.parse"
  | _ => Except.error "JSON.parse"

/-- One tag of the `_processTagsForChromeEnum` loop: a `chrome-enum` tag
has its leading space-delimited token unescaped and parsed as a JSON
literal, and its description taken from one character past the unescaped
token's length, trimmed; other tags are skipped. -/
def enumTagStep (acc : List EnumPair) (t : CommentTag) : Except String (List EnumPair) := do
  let text := jsTrim t.text
  if t.tag ≠ "chrome-enum" then
    pure acc
  else do
    let raw := undoEscapes (firstSpaceToken text)
    let value ← jsonParseString raw
    let rest := jsTrim (substrFrom text (raw.length + 1))
    pure (acc ++ [⟨value, rest⟩])

/-- `Transform._processTagsForChromeEnum`: fold the tags and return the
ordered pair list, or `none` (the absent marker, distinct from an empty
list) when no pairs were produced. -/
def processTagsForChromeEnum (tags : List CommentTag) : Except String (Option (List EnumPair)) := do
  let enums ← tags.foldlM enumTagStep []
  pure (if enums.isEmpty then none else some enums)

/-- Feature metadata extracted from documentation tags. -/
structure FeatureInfo where
  channel : String
  since : Option String
  platformAppsOnly : Bool
  permissions : Option (List String)
  manifestKeys : Option (List String)
  deprecated : Option (String × Option String)
  minManifest : Option String
  maxManifest : Option String
  disallowServiceWorkers : Bool
  deriving DecidableEq, Repr

/-- Intermediate state for the shared `deprecated` record of
`_processTagsToFeature`: the two deprecation tags mutate one record, and
`out.deprecated` points at it once either tag has been seen. -/
structure DeprecatedSt where
  value : String
  since : Option String
  attached : Bool
  deriving DecidableEq, Repr

/-- `Transform._processTagsToFeature`: fold the ordered tag list over a
`{channel: "stable"}` start; scalar fields are overwritten, list fields
append, unrecognized tags are ignored. -/
def processTagsToFeature (tags : List CommentTag) : FeatureInfo :=
  let start : FeatureInfo × DeprecatedSt :=
    (⟨"stable", none, false, none, none, none, none, none, false⟩, ⟨"", none, false⟩)
  let step := fun (acc : FeatureInfo × DeprecatedSt) (t : CommentTag) =>
    let out := acc.1
    let dep := acc.2
    let text := jsTrim t.text
    if t.tag = "chrome-platform-apps" then ({out with platformAppsOnly := true}, dep)
    else if t.tag = "since" then ({out with since := some text}, dep)
    else if t.tag = "chrome-channel" then ({out with channel := text}, dep)
    else if t.tag = "chrome-permission" then
      ({out with permissions := some ((out.permissions.getD []) ++ [text])}, dep)
    else if t.tag = "chrome-manifest" then
      ({out with manifestKeys := some ((out.manifestKeys.getD []) ++ [text])}, dep)
    else if t.tag = "deprecated" then (out, {dep with value := text, attached := true})
    else if t.tag = "chrome-deprecated-since" then
      (out, {dep with since := some text, attached := true})
    else if t.tag = "chrome-min-manifest" then ({out with minManifest := some text}, dep)
    else if t.tag = "chrome-max-manifest" then ({out with maxManifest := some text}, dep)
    else if t.tag = "chrome-disallow-service-workers" then
      ({out with disallowServiceWorkers := true}, dep)
    else (out, dep)
  let fin := tags.foldl step start
  if fin.2.attached then {fin.1 with deprecated := some (fin.2.value, fin.2.since)} else fin.1

/-- `Transform.upgradeParamWithParamSinceTags`: promote
`chrome-param-*` tags from the owning signature's comment onto the
parameter's own comment; only tags whose text starts with
`"<paramName> "` apply, and the prefixed name is stripped. -/
def upgradeParamWithParamSinceTags (param : DeclNode) (tags : List CommentTag) : DeclNode :=
  let paramPfx := param.name ++ " "
  let virtualNodeTags := tags.foldr (fun tag acc =>
    if ¬ (tag.text.data.take paramPfx.length = paramPfx.data) then acc
    else
      let text := substrFrom tag.text paramPfx.length
      if tag.tag = "chrome-param-since" then ⟨"since", text⟩ :: acc
      else if tag.tag = "chrome-param-deprecated-since" then ⟨"chrome-deprecated-since", text⟩ :: acc
      else if tag.tag = "chrome-param-deprecated" then ⟨"deprecated", text⟩ :: acc
      else acc) []
  let c := param.comment.getD ⟨none, none, none, none⟩
  let c := {c with tags := some ((c.tags.getD []) ++ virtualNodeTags)}
  ⟨param.id, param.name, param.kind, param.children, param.type, param.signatures, some c, param.flags⟩

/-- `Transform.upgradeReturnWithReturnSinceTags`: same as the parameter
upgrade but for the virtual return node and the `chrome-returns-*`
tags (no name filtering). -/
def upgradeReturnWithReturnSinceTags (param : DeclNode) (tags : List CommentTag) : DeclNode :=
  let virtualNodeTags := tags.foldr (fun tag acc =>
    if tag.tag = "chrome-returns-since" then ⟨"since", tag.text⟩ :: acc
    else if tag.tag = "chrome-returns-deprecated-since" then ⟨"chrome-deprecated-since", tag.text⟩ :: acc
    else if tag.tag = "chrome-returns-deprecated" then ⟨"deprecated", tag.text⟩ :: acc
    else acc) []
  let c := param.comment.getD ⟨none, none, none, none⟩
  let c := {c with tags := some ((c.tags.getD []) ++ virtualNodeTags)}
  ⟨param.id, param.name, param.kind, param.children, param.type, param.signatures, some c, param.flags⟩

/-- Whether a signature's return type is present and not the intrinsic
`void` (the guard on line 339 of the source). -/
def isNonVoidSig (s : SigNode) : Bool :=
  match s.type with
  | some (SomeType.intrinsic nm) => nm ≠ "void"
  | some _ => true
  | none => false

/-- Accumulator of the per-signature loop in `Transform.walk`'s method
block: the `allParams` map (as an assignment log with `Map` insertion
semantics via `jsValuesS`/`jsGetS`), the node comment, the
return-signature comment and the return type. -/
structure SigFold where
  allParams : List (String × DeclNode)
  nodeComment : Option Comment
  returnSignatureComment : Option Comment
  returnType : Option SomeType

/-- The tags of a signature's comment (`s.comment?.tags ?? []`). -/
def sigTagsOf (s : SigNode) : List CommentTag := (s.comment.bind Comment.tags).getD []

/-- The parameter-collection step (lines 330-334): a parameter is stored
when its name is new or when it is marked optional; storing also promotes
the signature's `chrome-param-*` tags onto the parameter. -/
def paramStep (sigTags : List CommentTag) (m : List (String × DeclNode)) (param : DeclNode) :
    List (String × DeclNode) :=
  if (jsGetS m param.name).isNone ∨ param.flags.isOptional then
    m ++ [(param.name, upgradeParamWithParamSinceTags param sigTags)]
  else m

/-- One signature of the method loop (lines 329-350). -/
def sigStep (acc : SigFold) (s : SigNode) : SigFold :=
  let m := (s.parameters.getD []).foldl (paramStep (sigTagsOf s)) acc.allParams
  if isNonVoidSig s then
    { allParams := m
      nodeComment := acc.nodeComment <|> s.comment
      returnSignatureComment := s.comment
      returnType := s.type }
  else { acc with allParams := m }

/-- The whole signature loop, starting from the effective declaration's
own comment. -/
def foldSignatures (initComment : Option Comment) (sigs : List SigNode) : SigFold :=
  sigs.foldl sigStep ⟨[], initComment, none, none⟩

/-- An extended reflection: the walked form of a declaration node.  In the
JavaScript source the extra fields are bolted onto the input node in
place; here the walk produces this value.  The index logs record each
node's snapshot at its insertion point; the fields the later phases rely
on (`_name`, `_pageHref`, `id`) are assigned once before insertion and
never change afterwards, so the snapshot agrees with the final node on
them.  `_method` is flattened into the three `method*` fields. -/
inductive ExtNode : Type where
  | mk (id : Int) (name : String) (kind : Nat) (flags : Flags) (comment : Option Comment)
       (type : Option SomeType) (qname : String) (pageHref : String) (pageId : Option String)
       (typeProps : Option (List ExtNode))
       (methodParams : Option (List ExtNode)) (methodReturn : Option ExtNode)
       (methodIsAsync : Bool)
       (eventInfo : Option EventInfo) (feature : Option FeatureInfo)
       (enums : Option (List EnumPair))

/-- Extended node id. -/
def ExtNode.id : ExtNode → Int
  | ⟨i, _, _, _, _, _, _, _, _, _, _, _, _, _, _, _⟩ => i

/-- Extended node `_name` (dotted qualified name). -/
def ExtNode.qname : ExtNode → String
  | ⟨_, _, _, _, _, _, q, _, _, _, _, _, _, _, _, _⟩ => q

/-- Extended node `_pageHref`. -/
def ExtNode.pageHref : ExtNode → String
  | ⟨_, _, _, _, _, _, _, p, _, _, _, _, _, _, _, _⟩ => p

/-- Extended node `_pageId` (absent on page roots). -/
def ExtNode.pageId : ExtNode → Option String
  | ⟨_, _, _, _, _, _, _, _, p, _, _, _, _, _, _, _⟩ => p

/-- Extended node comment. -/
def ExtNode.comment : ExtNode → Option Comment
  | ⟨_, _, _, _, c, _, _, _, _, _, _, _, _, _, _, _⟩ => c

/-- Extended node type. -/
def ExtNode.type : ExtNode → Option SomeType
  | ⟨_, _, _, _, _, t, _, _, _, _, _, _, _, _, _, _⟩ => t

/-- Extended node `_type.properties`. -/
def ExtNode.typeProps : ExtNode → Option (List ExtNode)
  | ⟨_, _, _, _, _, _, _, _, _, tp, _, _, _, _, _, _⟩ => tp

/-- Extended node `_method.parameters`. -/
def ExtNode.methodParams : ExtNode → Option (List ExtNode)
  | ⟨_, _, _, _, _, _, _, _, _, _, mp, _, _, _, _, _⟩ => mp

/-- Extended node `_method.return`. -/
def ExtNode.methodReturn : ExtNode → Option ExtNode
  | ⟨_, _, _, _, _, _, _, _, _, _, _, mr, _, _, _, _⟩ => mr

/-- Extended node `_method.isReturnsAsync`. -/
def ExtNode.methodIsAsync : ExtNode → Bool
  | ⟨_, _, _, _, _, _, _, _, _, _, _, _, ma, _, _, _⟩ => ma

/-- Extended node `_event`. -/
def ExtNode.eventInfo : ExtNode → Option EventInfo
  | ⟨_, _, _, _, _, _, _, _, _, _, _, _, _, ev, _, _⟩ => ev

/-- Extended node `_feature`. -/
def ExtNode.feature : ExtNode → Option FeatureInfo
  | ⟨_, _, _, _, _, _, _, _, _, _, _, _, _, _, fe, _⟩ => fe

/-- Extended node `_enums`. -/
def ExtNode.enums : ExtNode → Option (List EnumPair)
  | ⟨_, _, _, _, _, _, _, _, _, _, _, _, _, _, _, en⟩ => en

/-- The extended node at the moment the walk inserts it into an index:
`_name` and `_pageHref` assigned, nothing else yet. -/
def mkBaseExt (node : DeclNode) (qname pageHref : String) : ExtNode :=
  ExtNode.mk node.id node.name node.kind node.flags node.comment node.type qname pageHref
    none none none none false none none none

/-- JavaScript truthiness of an optional string (absent and empty are
falsy). -/
def jsTruthyOptStr : Option String → Bool
  | some s => s ≠ ""
  | none => false

/-- `Transform.createHref`: a same-page link is `"#" + to._pageId` when
the target id is truthy and `undefined` otherwise; a cross-page link is
`"../" + to._pageHref + "/"` plus the hash part. -/
def createHref (fromN toN : ExtNode) : Option String :=
  let hashPlusId := if jsTruthyOptStr toN.pageId then "#" ++ (toN.pageId.getD "") else ""
  if fromN.pageHref = toN.pageHref then
    (if hashPlusId ≠ "" then some hashPlusId else none)
  else some ("../" ++ toN.pageHref ++ "/" ++ hashPlusId)

/-- Index (from the front) of the last '.' in a char list, if any
(JavaScript `lastIndexOf('.')` with -1 mapped to `none`). -/
def lastIndexOfDot : List Char → Option Nat
  | [] => none
  | c :: rest =>
    match lastIndexOfDot rest with
    | some i => some (i + 1)
    | none => if c = '.' then some 0 else none

/-- The `popLast` helper of `Transform.resolveLink`:
`last = s.lastIndexOf('.'); last > 0 ? s.substr(0, last) : ''`. -/
def popLast (s : String) : String :=
  match lastIndexOfDot s.data with
  | some i => if 0 < i then ⟨s.data.take i⟩ else ""
  | none => ""

/-- The retry loop of `Transform.resolveLink`, with the fuel used as a
termination measure (each retry strictly shortens `id`). -/
def resolveLinkLoop (idx : List (String × ExtNode)) (link : String) :
    Nat → String → Option ExtNode
  | 0, _ => none
  | Nat.succ f, id =>
    let check := if id ≠ "" then id ++ "." ++ link else link
    match jsGetS idx check with
    | some c => some c
    | none => if id = "" then none else resolveLinkLoop idx link f (popLast id)

/-- `Transform.resolveLink` over the by-name index: trim both inputs,
bail out on an empty link, then run the retry loop. -/
def resolveLink (idx : List (String × ExtNode)) (id link : String) : Option ExtNode :=
  let id := jsTrim id
  let link := jsTrim link
  if link = "" then none else resolveLinkLoop idx link (id.length + 1) id

/-- The candidate-name chain exactly as the specification describes the
dotted-name lookup: try `id + "." + link`, drop `id`'s last dotted
segment and retry, and try `link` alone once `id` is empty.  (Spec-side
definition for the refinement theorem of claim C6.) -/
def linkCandidates (link : String) : Nat → String → List String
  | 0, _ => []
  | Nat.succ f, id =>
    if id = "" then [link] else (id ++ "." ++ link) :: linkCandidates link f (popLast id)

/-- First index hit along a candidate chain ("return the first match
found, or no match if none"). -/
def firstHit (idx : List (String × ExtNode)) : List String → Option ExtNode
  | [] => none
  | k :: rest =>
    match jsGetS idx k with
    | some v => some v
    | none => firstHit idx rest

/-- The page context a walk call runs under: the owning page root's
`_name` and `_pageHref`. -/
structure NsCtx where
  qname : String
  pageHref : String

/-- The mutable run state of `Transform`, threaded explicitly:
`allByName`, `pendingReferences` and `indexForReferences` as assignment
logs (lookup takes the latest assignment, mirroring object/`Map`
semantics), plus `visited`, a trace of the ids of the nodes the walker
visits, recorded purely so the theorems can quantify over visited
nodes. -/
structure St where
  allByName : List (String × ExtNode)
  pendingReferences : List ExtNode
  indexForReferences : List (Int × ExtNode)
  visited : List Int

/-- Step 1 of `Transform.walk` (naming and indexing): derive the
qualified name, register in `allByName` when a parent exists, record the
visit, and index ids greater than zero. -/
def registerNode (node : DeclNode) (parent : Option String) (qname : String) (ns : NsCtx)
    (st : St) : St :=
  let st := match parent with
    | some _ => {st with allByName := st.allByName ++ [(qname, mkBaseExt node qname ns.pageHref)]}
    | none => st
  let st := {st with visited := st.visited ++ [node.id]}
  if 0 < node.id then
    {st with indexForReferences := st.indexForReferences ++ [(node.id, mkBaseExt node qname ns.pageHref)]}
  else st

/-- Walk a list of nodes in order under a fixed parent and page context
(the source's `for ... this.walk(c, ...)` loops). -/
def walkMany (go : DeclNode → Option String → NsCtx → St → Except String (ExtNode × St)) :
    List DeclNode → Option String → NsCtx → St → Except String (List ExtNode × St)
  | [], _, _, st => Except.ok ([], st)
  | n :: rest, p, ns, st => do
    let (e, st1) ← go n p ns st
    let (es, st2) ← walkMany go rest p ns st1
    Except.ok (e :: es, st2)

/-- Step 2 of `Transform.walk` (reference classification): event-marker
references are upgraded and their synthesized children walked; other
references are queued as pending. -/
def refPhase (go : DeclNode → Option String → NsCtx → St → Except String (ExtNode × St))
    (node : DeclNode) (qname : String) (ns : NsCtx) (st : St) :
    Except String (Option EventInfo × Option (List ExtNode) × St) :=
  match node.type with
  | some (SomeType.reference _ rname _) =>
    if chromeEventRefTypes.contains rname then do
      let up ← upgradeEventNode node
      let (kids, st1) ← walkMany go up.children (some qname) ns st
      pure (some up.event, if up.setsMethod then some kids else none, st1)
    else
      pure (none, none,
        {st with pendingReferences := st.pendingReferences ++ [mkBaseExt node qname ns.pageHref]})
  | _ => pure (none, none, st)

/-- Step 3 of `Transform.walk` (structural descent): non-namespace
children become `_type.properties` and are walked. -/
def childrenPhase (go : DeclNode → Option String → NsCtx → St → Except String (ExtNode × St))
    (eff : DeclNode) (qname : String) (ns : NsCtx) (st : St) :
    Except String (Option (List ExtNode) × St) :=
  match eff.children with
  | some chs =>
    if chs.isEmpty then pure (none, st)
    else
      let kids := chs.filter (fun c => c.kind != kindNamespace)
      if kids.isEmpty then pure (none, st)
      else do
        let (walked, st1) ← walkMany go kids (some qname) ns st
        pure (some walked, st1)
  | none => pure (none, st)

/-- The virtual `return` parameter (lines 365-381): carries the return
type, a comment built from the node comment's truthy `returns` text, and
the promoted `chrome-returns-*` tags of the return signature comment. -/
def mkReturnVirtualNode (rt : SomeType) (nodeComment : Option Comment) (rsc : Option Comment) :
    DeclNode :=
  let commentOpt := match nodeComment.bind Comment.returns with
    | some r => if r ≠ "" then some (⟨some r, none, none, none⟩ : Comment) else none
    | none => none
  let base : DeclNode := ⟨-1, "return", kindParameter, none, some rt, none, commentOpt, ⟨false⟩⟩
  upgradeReturnWithReturnSinceTags base ((rsc.bind Comment.tags).getD [])

/-- Step 4 of `Transform.walk` (callable descent): fold the signatures,
assemble the deduplicated parameter list, hoist the comment, create and
walk the virtual return node, and return the `_method` data, the new node
comment and whether the block ran. -/
def sigsPhase (go : DeclNode → Option String → NsCtx → St → Except String (ExtNode × St))
    (eff : DeclNode) (qname : String) (ns : NsCtx) (st : St) :
    Except String (Option (List ExtNode × Option ExtNode × Bool) × Option Comment × Bool × St) :=
  match eff.signatures with
  | some sigs =>
    if sigs.isEmpty then pure (none, none, false, st)
    else do
      let fo := foldSignatures eff.comment sigs
      let parameters := jsValuesS fo.allParams
      let nodeComment := fo.nodeComment <|> (sigs.head?.bind SigNode.comment)
      match fo.returnType with
      | some rt => do
        let vn := mkReturnVirtualNode rt nodeComment fo.returnSignatureComment
        let (walkedAll, st1) ← walkMany go (parameters ++ [vn]) (some qname) ns st
        let isAsync := match rt with
          | SomeType.reference _ nm _ => nm = "Promise"
          | _ => false
        pure (some (walkedAll.dropLast, walkedAll.getLast?, isAsync), nodeComment, true, st1)
      | none => do
        let (walked, st1) ← walkMany go parameters (some qname) ns st
        pure (some (walked, none, false), nodeComment, true, st1)
  | none => pure (none, none, false, st)

/-- JavaScript `t?.['types']` of the composite descent. -/
def typesOf : SomeType → List SomeType
  | SomeType.unionT ts => ts
  | SomeType.intersectionT ts => ts
  | _ => []

/-- JavaScript `t?.['elements']`. -/
def elementsOf : SomeType → List SomeType
  | SomeType.tupleT es => es
  | _ => []

/-- JavaScript `t?.['elementType']` (a single type, kept by `flat`). -/
def elementTypeOf : SomeType → List SomeType
  | SomeType.arrayT e => [e]
  | _ => []

/-- JavaScript `t?.['typeArguments']`. -/
def typeArgumentsOf : SomeType → List SomeType
  | SomeType.reference _ _ (some tas) => tas
  | _ => []

/-- JavaScript `Boolean(t && ('types' in t || 'elementType' in t))`. -/
def hoistFlag : SomeType → Bool
  | SomeType.unionT _ => true
  | SomeType.intersectionT _ => true
  | SomeType.arrayT _ => true
  | _ => false

/-- Step 5 of `Transform.walk` (composite-type descent, skipped on event
nodes): wrap each member type in a synthetic TypeAlias node, walk it, and
hoist the inner properties of union/intersection/array members. -/
def compositePhase (go : DeclNode → Option String → NsCtx → St → Except String (ExtNode × St))
    (hasEvent : Bool) (eff : DeclNode) (qname : String) (ns : NsCtx) (st : St) :
    Except String (Option (List ExtNode) × St) :=
  if hasEvent then pure (none, st)
  else
    match eff.type with
    | none => pure (none, st)
    | some t => do
      let allTypes := typesOf t ++ elementsOf t ++ elementTypeOf t ++ typeArgumentsOf t
      let vnodes := allTypes.map (fun t2 =>
        (⟨-1, eff.name, kindTypeAlias, none, some t2, none, none, ⟨false⟩⟩ : DeclNode))
      let (walkedV, st1) ← walkMany go vnodes (some qname) ns st
      let inner := if hoistFlag t then (walkedV.map (fun v => v.typeProps.getD [])).flatten else []
      pure ((if inner.isEmpty then none else some inner), st1)

/-- `declarationWith` from the source: unwrap `type: reflection`
wrappers down to the underlying declaration (fuel-bounded; the walk
passes its own fuel, which bounds the reflection-chain depth it can
unwrap, exactly like the recursion it models). -/
def declarationWithF : Nat → DeclNode → DeclNode
  | 0, n => n
  | Nat.succ f, n =>
    match n.type with
    | some (SomeType.reflection (some d)) => declarationWithF f d
    | _ => n

/-- The qualified name a walk call derives: `parent._name + "." + name`
under a parent, the page root's own name otherwise. -/
def qnameOf (parent : Option String) (node : DeclNode) (ns : NsCtx) : String :=
  match parent with
  | some p => p ++ "." ++ node.name
  | none => ns.qname

/-- One unfolding of `Transform.walk`, parameterized by the recursive
call `go` and by `declarationWith`.  Mirrors the source's statement
order: naming/indexing, reference classification, structural descent,
callable descent, composite descent, tag processing, page-id
assignment. -/
def walkStep (go : DeclNode → Option String → NsCtx → St → Except String (ExtNode × St))
    (dw : DeclNode → DeclNode) (node : DeclNode) (parent : Option String) (ns : NsCtx)
    (st : St) : Except String (ExtNode × St) := do
  let pfx0 := if node.kind &&& kindVariableOrProperty ≠ 0 then "property" else "type"
  let qname := qnameOf parent node ns
  let st := registerNode node parent qname ns st
  let (evInfo, evKids, st) ← refPhase go node qname ns st
  let eff := dw node
  let effIsSelf := match node.type with
    | some (SomeType.reflection (some _)) => false
    | _ => true
  let (props1, st) ← childrenPhase go eff qname ns st
  let (sigMethod, sigComment, sigProcessed, st) ← sigsPhase go eff qname ns st
  let (props2, st) ← compositePhase go evInfo.isSome eff qname ns st
  let nodeCommentFinal := if sigProcessed then sigComment else node.comment
  let effComment := if effIsSelf then nodeCommentFinal else (eff.comment <|> nodeCommentFinal)
  let effTags := (effComment.bind Comment.tags).getD []
  let feature := processTagsToFeature effTags
  let enums ← processTagsForChromeEnum effTags
  let finalPfx := if sigProcessed then "method" else if evInfo.isSome then "event" else pfx0
  let pageId := match parent with
    | some _ => some (finalPfx ++ "-" ++ dotsToDashes (substrFrom qname (ns.qname.length + 1)))
    | none => none
  let typePropsFinal := match props2 with
    | some l => some l
    | none => props1
  let methodFinal := match sigMethod with
    | some md => some md
    | none => evKids.map (fun kids => (kids, (none : Option ExtNode), false))
  pure (ExtNode.mk node.id node.name node.kind node.flags nodeCommentFinal node.type qname
          ns.pageHref pageId typePropsFinal
          (methodFinal.map (·.1)) (methodFinal.bind (fun x => x.2.1))
          ((methodFinal.map (fun x => x.2.2)).getD false)
          evInfo (some feature) enums, st)

/-- `Transform.walk`, fuel-indexed: each recursive call spends one unit
of fuel, so the definition is structural and computes by reduction; a run
that exhausts its fuel fails, so every `Except.ok` result is a complete
walk. -/
def walkF : Nat → DeclNode → Option String → NsCtx → St → Except String (ExtNode × St)
  | 0, _, _, _, _ => Except.error "out of fuel"
  | Nat.succ f, node, parent, ns, st =>
    walkStep (walkF f) (declarationWithF (f + 1)) node parent ns st

/-- A page root found by the namespace locator: the underlying node, its
dotted qualified name, and its `_pageHref` slug. -/
structure RootEntry where
  node : DeclNode
  qname : String
  pageHref : String

/-- State of `Transform.findNamespaceRoots`: the `namespaces` registry and
`allByName` as assignment logs, plus a trace of the (node, qualified
name) pairs the locator reaches, recorded for the theorems. -/
structure RootsSt where
  namespaces : List (String × RootEntry)
  allByName : List (String × ExtNode)
  visitedNs : List (DeclNode × String)

/-- The qualified name the locator derives: concatenation with the
parent's, or the bare name directly under the project. -/
def rootQnameOf (parentQname : Option String) (node : DeclNode) : String :=
  match parentQname with
  | some p => p ++ "." ++ node.name
  | none => node.name

/-- Whether some direct child is not a Namespace-kind node (the negation
of the `hasOnlyNamespaces` flag the source's loop computes). -/
def hasNonNsChild (n : DeclNode) : Bool :=
  !((n.children.getD []).all (fun c => c.kind == kindNamespace))

/-- One step of the locator's `traverse`: build the qualified name, visit,
recurse into namespace-kind children, and register the node iff some
direct child is not a namespace. -/
def traverseStep (go : DeclNode → Option String → RootsSt → RootsSt) (node : DeclNode)
    (parentQname : Option String) (st : RootsSt) : RootsSt :=
  let qname := rootQnameOf parentQname node
  let key := stripChrome qname
  let pageHref := dotsToUnderscores key
  let st := {st with visitedNs := st.visitedNs ++ [(node, qname)]}
  let st := (node.children.getD []).foldl
    (fun acc c => if c.kind = kindNamespace then go c (some qname) acc else acc) st
  if hasNonNsChild node = true then
    {st with namespaces := st.namespaces ++ [(key, ⟨node, qname, pageHref⟩)],
             allByName := st.allByName ++ [(qname, mkBaseExt node qname pageHref)]}
  else st

/-- The locator's `traverse`, fuel-indexed (structural in the fuel). -/
def traverseF : Nat → DeclNode → Option String → RootsSt → RootsSt
  | 0, _, _, st => st
  | Nat.succ f, node, parentQname, st => traverseStep (traverseF f) node parentQname st

/-- `Transform.findNamespaceRoots`: traverse every top-level
namespace-kind child of the project. -/
def findNamespaceRoots (fuel : Nat) (project : DeclNode) : RootsSt :=
  (project.children.getD []).foldl
    (fun st c => if c.kind = kindNamespace then traverseF fuel c none st else st)
    ⟨[], [], []⟩

/-- The walk phase of `Transform.run`: locate the page roots, then walk
each registered namespace (in registry value order) as its own root. -/
def runWalkPhase (fuel : Nat) (project : DeclNode) : Except String (List ExtNode × St) := do
  let roots := findNamespaceRoots fuel project
  let st0 : St := ⟨roots.allByName, [], [], []⟩
  (jsValuesS roots.namespaces).foldlM
    (fun (acc : List ExtNode × St) r => do
      let (e, st1) ← walkF fuel r.node none ⟨r.qname, r.pageHref⟩ acc.2
      pure (acc.1 ++ [e], st1))
    (([] : List ExtNode), st0)

/-! Concrete instances used by scenario conjuncts, witnesses and
counterexamples. -/

/-- Property node `gamma` of the nested-namespace scenario. -/
def cGamma : DeclNode :=
  ⟨3, "gamma", kindProperty, none, some (SomeType.intrinsic "string"), none, none, ⟨false⟩⟩

/-- Namespace `alpha.beta`, holding only the property `gamma`. -/
def cBeta : DeclNode := ⟨2, "beta", kindNamespace, some [cGamma], none, none, none, ⟨false⟩⟩

/-- Namespace `alpha`, holding only the namespace `beta`. -/
def cAlpha : DeclNode := ⟨1, "alpha", kindNamespace, some [cBeta], none, none, none, ⟨false⟩⟩

/-- The project root of the nested-namespace scenario. -/
def cProject : DeclNode := ⟨0, "proj", 1, some [cAlpha], none, none, none, ⟨false⟩⟩

/-- A `CustomChromeEvent` reference whose first type argument is an
intrinsic type that is not "never". -/
def c3cce : DeclNode :=
  ⟨5, "onFoo", kindProperty, none,
    some (SomeType.reference none "CustomChromeEvent" (some [SomeType.intrinsic "number"])),
    none, none, ⟨false⟩⟩

/-- A declarative event reference missing its conditions/actions
arguments. -/
def c3decl : DeclNode :=
  ⟨6, "onBar", kindProperty, none,
    some (SomeType.reference none "events.Event" (some [SomeType.intrinsic "never"])),
    none, none, ⟨false⟩⟩

/-- Scenario condition type `ConditionA`. -/
def c4condA : SomeType := SomeType.reference none "ConditionA" none

/-- Scenario action type `ActionB`. -/
def c4actB : SomeType := SomeType.reference none "ActionB" none

/-- Scenario action type `ActionC`. -/
def c4actC : SomeType := SomeType.reference none "ActionC" none

/-- The declarative event of the scenario: type arguments
`[never, ConditionA, union(ActionB, ActionC)]`. -/
def c4node : DeclNode :=
  ⟨7, "onCond", kindProperty, none,
    some (SomeType.reference none "events.Event"
      (some [SomeType.intrinsic "never", c4condA, SomeType.unionT [c4actB, c4actC]])),
    none, none, ⟨false⟩⟩

/-- C3: the event upgrader raises its fatal error exactly when the marker
reference has no first type argument, or — for a marker other than
`CustomChromeEvent` — its first type argument is an intrinsic type that is
not literally "never", or it is "never" but the second or third type
argument is missing.  This is the claim amended with the
`CustomChromeEvent` carve-out: that branch never inspects the first
argument's shape (see `c3_counterexample`). -/
theorem c3_upgrade_event_errors (node : DeclNode) (rid : Option Int) (rname : String)
    (targs : Option (List SomeType))
    (h : node.type = some (SomeType.reference rid rname targs)) :
    exceptIsError (upgradeEventNode node) = true ↔
      (targs.bind List.head? = none ∨
        (rname ≠ "CustomChromeEvent" ∧
          ∃ iname, targs.bind List.head? = some (SomeType.intrinsic iname) ∧
            (iname ≠ "never" ∨ (targs.getD []).get? 1 = none ∨
              (targs.getD []).get? 2 = none))) := by
  simp only [upgradeEventNode, h]
  cases hfa : targs.bind List.head? with
  | none => simp [exceptIsError]
  | some fa =>
    by_cases hcce : rname = "CustomChromeEvent"
    · subst hcce
      simp [exceptIsError]
    · simp only [if_neg hcce]
      cases fa with
      | intrinsic iname =>
        by_cases hnev : iname = "never"
        · subst hnev
          simp only [ne_eq, not_true_eq_false, if_false, ite_false]
          cases h1 : (targs.getD []).get? 1 with
          | none => simp [exceptIsError, hcce]
          | some c =>
            cases h2 : (targs.getD []).get? 2 with
            | none => simp [exceptIsError, hcce]
            | some a => simp [exceptIsError, hcce]
        · simp [exceptIsError, hcce, hnev]
      | reference i2 n2 t2 => simp [exceptIsError, hcce]
      | reflection d => simp [exceptIsError, hcce]
      | unionT ts => simp [exceptIsError, hcce]
      | intersectionT ts => simp [exceptIsError, hcce]
      | arrayT e => simp [exceptIsError, hcce]
      | tupleT es => simp [exceptIsError, hcce]

/-- C3 witness: a declarative event marker missing its second and third
type arguments is fatal. -/
theorem c3_upgrade_event_errors_witness : exceptIsError (upgradeEventNode c3decl) = true :=
  (c3_upgrade_event_errors c3decl none "events.Event" (some [SomeType.intrinsic "never"])
    rfl).mpr
    (Or.inr ⟨by decide, "never", rfl, Or.inr (Or.inl rfl)⟩)

/-- C3 counterexample: a `CustomChromeEvent` marker whose first type
argument is the intrinsic type "number" (not "never") returns normally,
although the claim's "exactly when" requires a fatal error for every
event-marker reference whose first type argument is an intrinsic type not
named "never". -/
theorem c3_counterexample :
    exceptIsError (upgradeEventNode c3cce) = false ∧
    c3cce.type = some (SomeType.reference none "CustomChromeEvent"
      (some [SomeType.intrinsic "number"])) ∧
    "number" ≠ "never" :=
  ⟨rfl, rfl, by decide⟩

/-- C4 (amended): for a declarative event (marker other than
`CustomChromeEvent`, first type argument the intrinsic "never", second and
third arguments present) the conditions and actions are normalized to
lists (`ensureArrayOfType`: a union gives its ordered member list, any
other type a one-element list), `eventInfo` is set to
`{conditions, actions}`, and one synthetic TypeAlias wrapper node with
id ≤ 0 is returned per condition/action member — i.e. as many wrappers as
members, so only the members (not the "never" marker) are walked and
indexed; see `c4_counterexample`. -/
theorem c4_declarative_event (node : DeclNode) (rid : Option Int) (rname : String)
    (targs : Option (List SomeType)) (c a : SomeType)
    (h : node.type = some (SomeType.reference rid rname targs))
    (hcce : rname ≠ "CustomChromeEvent")
    (hfa : targs.bind List.head? = some (SomeType.intrinsic "never"))
    (h1 : (targs.getD []).get? 1 = some c) (h2 : (targs.getD []).get? 2 = some a) :
    upgradeEventNode node =
      Except.ok ⟨(ensureArrayOfType c ++ ensureArrayOfType a).map mkDeclarativeFake,
                 ⟨some (ensureArrayOfType c, ensureArrayOfType a)⟩, false⟩ ∧
    (∀ w ∈ (ensureArrayOfType c ++ ensureArrayOfType a).map mkDeclarativeFake,
        w.id ≤ 0 ∧ w.kind = kindTypeAlias) ∧
    ((ensureArrayOfType c ++ ensureArrayOfType a).map mkDeclarativeFake).length =
      (ensureArrayOfType c).length + (ensureArrayOfType a).length ∧
    (∀ ts, ensureArrayOfType (SomeType.unionT ts) = ts) ∧
    (∀ t, (∀ ts, t ≠ SomeType.unionT ts) → ensureArrayOfType t = [t]) := by
  refine ⟨?_, ?_, ?_, ?_, ?_⟩
  · simp only [upgradeEventNode, h, hfa, if_neg hcce]
    simp only [ne_eq, not_true_eq_false, if_false, ite_false, h1, h2]
  · intro w hw
    rcases List.mem_map.mp hw with ⟨t, _, rfl⟩
    exact ⟨by simp [mkDeclarativeFake, DeclNode.id], rfl⟩
  · simp
  · intro ts; rfl
  · intro t ht
    cases t with
    | unionT ts => exact absurd rfl (ht ts)
    | reference i n ta => rfl
    | reflection d => rfl
    | intersectionT ts => rfl
    | arrayT e => rfl
    | tupleT es => rfl
    | intrinsic n => rfl

/-- C4 witness: the scenario type arguments
`[never, ConditionA, union(ActionB, ActionC)]` give one condition and two
actions, with three wrapper nodes. -/
theorem c4_declarative_event_witness :
    (ensureArrayOfType c4condA).length = 1 ∧
    (ensureArrayOfType (SomeType.unionT [c4actB, c4actC])).length = 2 ∧
    upgradeEventNode c4node =
      Except.ok ⟨(ensureArrayOfType c4condA ++
                    ensureArrayOfType (SomeType.unionT [c4actB, c4actC])).map mkDeclarativeFake,
                 ⟨some (ensureArrayOfType c4condA,
                        ensureArrayOfType (SomeType.unionT [c4actB, c4actC]))⟩, false⟩ :=
  ⟨rfl, rfl,
    (c4_declarative_event c4node none "events.Event"
      (some [SomeType.intrinsic "never", c4condA, SomeType.unionT [c4actB, c4actC]])
      c4condA (SomeType.unionT [c4actB, c4actC]) rfl (by decide) rfl rfl rfl).1⟩

/-- C4 counterexample: for the scenario arguments the upgrader returns
exactly three wrapper nodes — one per condition/action member
(`ConditionA`, `ActionB`, `ActionC`) — not four; the intrinsic "never"
first argument is never wrapped or indexed, so "all four types separately
indexed" fails. -/
theorem c4_counterexample :
    ((upgradeEventNode c4node).toOption.map (fun u => u.children.map DeclNode.type)) =
      some [some c4condA, some c4actB, some c4actC] ∧
    ((upgradeEventNode c4node).toOption.map (fun u => u.children.length)) = some 3 ∧
    (3 : Nat) ≠ 4 :=
  ⟨rfl, rfl, by decide⟩

/-- Appending to "#" never yields the empty string. -/
theorem hash_append_ne_empty (s : String) : ("#" ++ s) ≠ "" := by
  intro h
  have h2 := congrArg String.length h
  simp [String.length_append] at h2
  exact absurd h2.1 (by decide)

/-- C7: `createHref` for nodes on the same page is `"#" + to._pageId` when
the target carries a (truthy) page id and no link at all (`undefined`,
the "self-link with no anchor") otherwise; across pages it is
`"../" + to._pageHref + "/"`, suffixed with `"#" + to._pageId` exactly
when the target carries a page id. -/
theorem c7_createHref (fromN toN : ExtNode) :
    (∀ pid, fromN.pageHref = toN.pageHref → toN.pageId = some pid → pid ≠ "" →
        createHref fromN toN = some ("#" ++ pid)) ∧
    (fromN.pageHref = toN.pageHref → toN.pageId = none → createHref fromN toN = none) ∧
    (∀ pid, fromN.pageHref ≠ toN.pageHref → toN.pageId = some pid → pid ≠ "" →
        createHref fromN toN = some ("../" ++ toN.pageHref ++ "/" ++ ("#" ++ pid))) ∧
    (fromN.pageHref ≠ toN.pageHref → toN.pageId = none →
        createHref fromN toN = some ("../" ++ toN.pageHref ++ "/")) := by
  refine ⟨?_, ?_, ?_, ?_⟩
  · intro pid hsame hpid hne
    simp [createHref, hsame, hpid, jsTruthyOptStr, hne, hash_append_ne_empty]
  · intro hsame hpid
    simp [createHref, hsame, hpid, jsTruthyOptStr]
  · intro pid hdiff hpid hne
    simp [createHref, hdiff, hpid, jsTruthyOptStr, hne]
  · intro hdiff hpid
    simp [createHref, hdiff, hpid, jsTruthyOptStr]

/-- A concrete extended node on page "alpha_beta" with page id
"property-gamma". -/
def c7target : ExtNode := ExtNode.mk 3 "gamma" kindProperty ⟨false⟩ none none
  "alpha.beta.gamma" "alpha_beta" (some "property-gamma") none none none false none none none

/-- A concrete extended node on page "other". -/
def c7from : ExtNode := ExtNode.mk 9 "x" kindProperty ⟨false⟩ none none
  "other.x" "other" (some "property-x") none none none false none none none

/-- C7 witness: concrete same-page and cross-page links. -/
theorem c7_createHref_witness :
    createHref c7target c7target = some "#property-gamma" ∧
    createHref c7from c7target = some "../alpha_beta/#property-gamma" :=
  ⟨(c7_createHref c7target c7target).1 "property-gamma" rfl rfl (by decide),
    by
      have h := (c7_createHref c7from c7target).2.2.1 "property-gamma" (by decide) rfl (by decide)
      simpa using h⟩

/-- The by-name target of the dotted-lookup scenario. -/
def c6fooBar : ExtNode := mkBaseExt cGamma "foo.Bar" "foo_Bar"

/-- A by-name index containing only `foo.Bar`. -/
def c6idx : List (String × ExtNode) := [("foo.Bar", c6fooBar)]

/-- A last-dot index is a valid index. -/
theorem lastIndexOfDot_lt : ∀ (l : List Char) (i : Nat), lastIndexOfDot l = some i → i < l.length := by
  intro l
  induction l with
  | nil => intro i h; simp [lastIndexOfDot] at h
  | cons c rest ih =>
    intro i h
    rw [lastIndexOfDot] at h
    cases hr : lastIndexOfDot rest with
    | some j =>
      rw [hr] at h
      simp only [Option.some.injEq] at h
      have := ih j hr
      simp only [List.length_cons]
      omega
    | none =>
      rw [hr] at h
      by_cases hc : c = '.'
      · simp only [if_pos hc, Option.some.injEq] at h
        simp only [List.length_cons]
        omega
      · simp [hc] at h

/-- Dropping the last dotted segment strictly shortens a nonempty
name. -/
theorem popLast_length (s : String) (h : s.data ≠ []) : (popLast s).length < s.length := by
  have hs : 0 < s.data.length := List.length_pos.mpr h
  rw [popLast]
  cases hl : lastIndexOfDot s.data with
  | none =>
    show (0 : Nat) < s.data.length
    exact hs
  | some i =>
    by_cases hi : 0 < i
    · simp only [if_pos hi]
      have hlt := lastIndexOfDot_lt s.data i hl
      show (s.data.take i).length < s.data.length
      rw [List.length_take]
      omega
    · simp only [if_neg hi]
      show (0 : Nat) < s.data.length
      exact hs

/-- The retry loop returns the first by-name hit along the candidate
chain, for every fuel value. -/
theorem resolveLinkLoop_eq_firstHit (idx : List (String × ExtNode)) (link : String) :
    ∀ (f : Nat) (id : String),
      resolveLinkLoop idx link f id = firstHit idx (linkCandidates link f id) := by
  intro f
  induction f with
  | zero => intro id; rfl
  | succ f ih =>
    intro id
    by_cases hid : id = ""
    · subst hid
      simp only [resolveLinkLoop, linkCandidates, if_pos rfl, ne_eq, not_true_eq_false,
        ite_false, if_false]
      cases hj : jsGetS idx link <;> simp [hj, firstHit]
    · simp only [resolveLinkLoop, linkCandidates, if_neg hid, ne_eq, hid, not_false_eq_true,
        ite_true, if_true]
      cases hj : jsGetS idx (id ++ "." ++ link) <;> simp [hj, firstHit, ih]

/-- Head extension does not change the last element of a nonempty
list. -/
theorem getLast?_cons_of_ne {α : Type} (a : α) (l : List α) (h : l ≠ []) :
    (a :: l).getLast? = l.getLast? := by
  cases l with
  | nil => exact absurd rfl h
  | cons b m => simp [List.getLast?_cons_cons]

/-- With fuel exceeding the length of the starting name, the candidate
chain always ends in the bare link (so the "link alone" fallback is
always reached). -/
theorem linkCandidates_getLast (link : String) :
    ∀ (f : Nat) (id : String), id.length < f →
      (linkCandidates link f id).getLast? = some link := by
  intro f
  induction f with
  | zero => intro id h; omega
  | succ f ih =>
    intro id h
    by_cases hid : id = ""
    · simp [linkCandidates, hid]
    · simp only [linkCandidates, if_neg hid]
      have hd : id.data ≠ [] := by
        intro hd
        exact hid (by cases id; simp_all [String.ext_iff])
      have hlt : (popLast id).length < f := by
        have := popLast_length id hd
        omega
      have hne : linkCandidates link f (popLast id) ≠ [] := by
        have := ih (popLast id) hlt
        intro hnil
        rw [hnil] at this
        simp at this
      rw [getLast?_cons_of_ne _ _ hne]
      exact ih (popLast id) hlt

/-- C6: dotted-name lookup is exactly "first hit along the candidate
chain": `resolveLink` (after trimming, and short of an empty link) equals
the first by-name match over the chain that tries `id + "." + link`,
repeatedly drops `id`'s last dotted segment, and finally tries `link`
alone (the chain provably ends with the bare link); and the scenario
chain for id `foo.bar.zing.Hello`, link `Bar` is exactly the five
candidates of the specification, succeeding at `foo.Bar` over an index
containing only `foo.Bar`. -/
theorem c6_resolve_link :
    (∀ (idx : List (String × ExtNode)) (id link : String),
        resolveLink idx id link =
          if jsTrim link = "" then none
          else firstHit idx
            (linkCandidates (jsTrim link) ((jsTrim id).length + 1) (jsTrim id))) ∧
    (∀ (id link : String),
        (linkCandidates (jsTrim link) ((jsTrim id).length + 1) (jsTrim id)).getLast? =
          some (jsTrim link)) ∧
    linkCandidates "Bar" ("foo.bar.zing.Hello".length + 1) "foo.bar.zing.Hello" =
      ["foo.bar.zing.Hello.Bar", "foo.bar.zing.Bar", "foo.bar.Bar", "foo.Bar", "Bar"] ∧
    (resolveLink c6idx "foo.bar.zing.Hello" "Bar").map ExtNode.qname = some "foo.Bar" := by
  refine ⟨?_, ?_, ?_, ?_⟩
  · intro idx id link
    by_cases hl : jsTrim link = ""
    · simp [resolveLink, hl]
    · simp [resolveLink, hl, resolveLinkLoop_eq_firstHit]
  · intro id link
    exact linkCandidates_getLast (jsTrim link) ((jsTrim id).length + 1) (jsTrim id) (by omega)
  · rfl
  · rfl

/-- Per-tag member value of the enum extractor specification: the leading
space-delimited token of the trimmed text, underscore escapes undone,
parsed as a JSON literal. -/
def enumTagValue (t : CommentTag) : String :=
  ((jsonParseString (undoEscapes (firstSpaceToken (jsTrim t.text)))).toOption).getD ""

/-- Per-tag description of the enum extractor as the code computes it: the
trimmed remainder of the text from one character past the length of the
unescaped token. -/
def enumTagDescr (t : CommentTag) : String :=
  jsTrim (substrFrom (jsTrim t.text)
    ((undoEscapes (firstSpaceToken (jsTrim t.text))).length + 1))

/-- Specification of the extracted pair list: one `{value, description}`
pair per `chrome-enum` tag, in tag order. -/
def enumPairsSpec (tags : List CommentTag) : List EnumPair :=
  (tags.filter (fun t => t.tag == "chrome-enum")).map
    (fun t => ⟨enumTagValue t, enumTagDescr t⟩)

/-- A successful enum fold produces exactly the per-tag pairs, appended to
the accumulator in order. -/
theorem enumFold_ok : ∀ (tags : List CommentTag) (acc l : List EnumPair),
    List.foldlM enumTagStep acc tags = Except.ok l → l = acc ++ enumPairsSpec tags := by
  intro tags
  induction tags with
  | nil =>
    intro acc l h
    simp only [List.foldlM] at h
    cases h
    simp [enumPairsSpec]
  | cons t rest ih =>
    intro acc l h
    rw [List.foldlM_cons] at h
    by_cases ht : t.tag = "chrome-enum"
    · simp only [enumTagStep, ht, ne_eq, not_true_eq_false, ite_false, if_false] at h
      cases hv : jsonParseString (undoEscapes (firstSpaceToken (jsTrim t.text))) with
      | error e =>
        rw [hv] at h
        simp [bind, Except.bind] at h
      | ok v =>
        rw [hv] at h
        simp only [bind, Except.bind] at h
        have := ih _ l h
        subst this
        simp only [enumPairsSpec, List.filter_cons, ht, List.map_cons, beq_self_eq_true,
          if_true, ite_true]
        simp only [enumTagValue, enumTagDescr, hv, Except.toOption, Option.getD_some]
        simp [List.append_assoc]
    · have ht2 : (t.tag == "chrome-enum") = false := by simp [ht]
      simp only [enumTagStep, ne_eq, ht, not_false_eq_true, ite_true, if_true, pure,
        Except.pure] at h
      have := ih _ l h
      subst this
      simp [enumPairsSpec, List.filter_cons, ht2]

/-- C8 (amended): the enum extractor returns, in tag order, one
`{value, description}` pair per `chrome-enum` tag, where the value is the
unescaped leading token parsed as a JSON literal and the description is
the trimmed remainder of the text from one character past the *unescaped*
token's length (this agrees with "the remainder after the token and one
separating space" only while the token contains at most one underscore
escape — see `c8_counterexample`); with no `chrome-enum` tag it returns
the absent marker, distinct from an empty list.  The scenario tags
produce the two pairs of the claim, in order. -/
theorem c8_enum_extractor :
    (∀ (tags : List CommentTag) (out : Option (List EnumPair)),
        processTagsForChromeEnum tags = Except.ok out →
          out = (if (enumPairsSpec tags).isEmpty then none else some (enumPairsSpec tags))) ∧
    (∀ (tags : List CommentTag) (out : Option (List EnumPair)),
        processTagsForChromeEnum tags = Except.ok out →
          (out = none ↔ tags.filter (fun t => t.tag == "chrome-enum") = [])) ∧
    processTagsForChromeEnum
        [⟨"chrome-enum", "\"foo_bar\" The Foo value"⟩,
         ⟨"chrome-enum", "\"baz\" The Baz value"⟩] =
      Except.ok (some [⟨"foo_bar", "The Foo value"⟩, ⟨"baz", "The Baz value"⟩]) := by
  have main : ∀ (tags : List CommentTag) (out : Option (List EnumPair)),
      processTagsForChromeEnum tags = Except.ok out →
        out = (if (enumPairsSpec tags).isEmpty then none else some (enumPairsSpec tags)) := by
    intro tags out h
    simp only [processTagsForChromeEnum, bind, Except.bind] at h
    cases hf : List.foldlM enumTagStep [] tags with
    | error e => rw [hf] at h; cases h
    | ok l =>
      rw [hf] at h
      simp only [pure, Except.pure, Except.ok.injEq] at h
      have := enumFold_ok tags [] l hf
      subst this
      simp only [List.nil_append] at h
      exact h.symm
  refine ⟨main, ?_, ?_⟩
  · intro tags out h
    have := main tags out h
    subst this
    by_cases he : (enumPairsSpec tags).isEmpty
    · simp only [if_pos he, true_iff]
      simp only [enumPairsSpec, List.isEmpty_iff, List.map_eq_nil_iff] at he ⊢
      exact he
    · simp only [if_neg he]
      constructor
      · intro hc; cases hc
      · intro hc
        exfalso
        apply he
        simp [enumPairsSpec, hc]
  · rfl

/-- C8 counterexample: a token with two underscore escapes.  The text
after the token `"a\_b\_c"` and one separating space is `D`, but the code
computes the remainder from one past the shorter unescaped token's
length, yielding a description that still contains the token's closing
quote — refuting "the remainder of the text after the token and one
separating space, trimmed, gives the description". -/
theorem c8_counterexample :
    processTagsForChromeEnum [⟨"chrome-enum", "\"a\\_b\\_c\" D"⟩] =
      Except.ok (some [⟨"a_b_c", "\" D"⟩]) ∧
    ("\" D" : String) ≠ "D" :=
  ⟨rfl, by decide⟩

/-- C8 witness: the first conjunct of `c8_enum_extractor` applied at the
scenario tags, its hypothesis discharged by evaluation. -/
theorem c8_enum_extractor_witness :
    (some [(⟨"foo_bar", "The Foo value"⟩ : EnumPair), ⟨"baz", "The Baz value"⟩] :
        Option (List EnumPair)) =
      (if (enumPairsSpec [⟨"chrome-enum", "\"foo_bar\" The Foo value"⟩,
            ⟨"chrome-enum", "\"baz\" The Baz value"⟩]).isEmpty then none
       else some (enumPairsSpec [⟨"chrome-enum", "\"foo_bar\" The Foo value"⟩,
            ⟨"chrome-enum", "\"baz\" The Baz value"⟩])) :=
  c8_enum_extractor.1
    [⟨"chrome-enum", "\"foo_bar\" The Foo value"⟩, ⟨"chrome-enum", "\"baz\" The Baz value"⟩]
    (some [⟨"foo_bar", "The Foo value"⟩, ⟨"baz", "The Baz value"⟩]) rfl

/-- JavaScript `a ?? b` on optional values. -/
def oalt {α : Type} (a b : Option α) : Option α :=
  match a with
  | some x => some x
  | none => b

/-- The `<|>` used by the embedding agrees with `oalt`. -/
theorem orElse_eq_oalt {α : Type} (a b : Option α) : (a <|> b) = oalt a b := by
  cases a <;> rfl

/-- `oalt` is associative. -/
theorem oalt_assoc {α : Type} (a b c : Option α) : oalt (oalt a b) c = oalt a (oalt b c) := by
  cases a <;> rfl

/-- `none` is a right unit for `oalt`. -/
theorem oalt_none_right {α : Type} (a : Option α) : oalt a none = a := by
  cases a <;> rfl

/-- The last element of a cons as a fallback chain. -/
theorem getLast?_cons_oalt {α : Type} (a : α) (l : List α) :
    (a :: l).getLast? = oalt l.getLast? (some a) := by
  induction l generalizing a with
  | nil => rfl
  | cons b m ih =>
    rw [List.getLast?_cons_cons, ih b]
    cases m.getLast? <;> rfl

/-- The last element of an append as a fallback chain. -/
theorem getLast?_append_oalt {α : Type} (l1 l2 : List α) :
    (l1 ++ l2).getLast? = oalt l2.getLast? l1.getLast? := by
  induction l1 with
  | nil => simp [oalt_none_right]
  | cons a m ih =>
    rw [List.cons_append, getLast?_cons_oalt, ih, getLast?_cons_oalt, oalt_assoc]

/-- The head of an append as a fallback chain. -/
theorem head?_append_oalt {α : Type} (l1 l2 : List α) :
    (l1 ++ l2).head? = oalt l1.head? l2.head? := by
  cases l1 <;> rfl

/-- Lookup after appending one assignment. -/
theorem jsGetS_append {α : Type} (m : List (String × α)) (k : String) (v : α) (name : String) :
    jsGetS (m ++ [(k, v)]) name = if k = name then some v else jsGetS m name := by
  simp only [jsGetS, List.reverse_append]
  by_cases hk : k = name
  · subst hk
    simp [List.find?]
  · have : (k == name) = false := by simp [hk]
    simp [List.find?, this, hk]

/-- The parameter upgrade does not change the parameter's name. -/
theorem upgradeParam_name (p : DeclNode) (tags : List CommentTag) :
    (upgradeParamWithParamSinceTags p tags).name = p.name := rfl

/-- The parameter upgrade does not change the parameter's flags. -/
theorem upgradeParam_flags (p : DeclNode) (tags : List CommentTag) :
    (upgradeParamWithParamSinceTags p tags).flags = p.flags := rfl

/-- The non-void signatures of a list, in order. -/
def nvSigs (sigs : List SigNode) : List SigNode := sigs.filter isNonVoidSig

/-- The last non-void signature, if any. -/
def lastNv (sigs : List SigNode) : Option SigNode := (nvSigs sigs).getLast?

/-- The first comment carried by a non-void signature. -/
def firstNvComment (sigs : List SigNode) : Option Comment :=
  ((nvSigs sigs).filterMap SigNode.comment).head?

/-- The node comment after the signature loop: the starting comment, else
the first non-void signature's comment. -/
theorem foldl_sigStep_nodeComment : ∀ (sigs : List SigNode) (acc : SigFold),
    (sigs.foldl sigStep acc).nodeComment = oalt acc.nodeComment (firstNvComment sigs) := by
  intro sigs
  induction sigs with
  | nil => intro acc; simp [firstNvComment, nvSigs, oalt_none_right]
  | cons s rest ih =>
    intro acc
    rw [List.foldl_cons, ih]
    by_cases h : isNonVoidSig s = true
    · have h1 : (sigStep acc s).nodeComment = oalt acc.nodeComment s.comment := by
        simp [sigStep, h, orElse_eq_oalt]
      have h2 : firstNvComment (s :: rest) = oalt s.comment (firstNvComment rest) := by
        simp only [firstNvComment, nvSigs, List.filter_cons, h, if_true, ite_true]
        cases hc : s.comment with
        | none => simp [List.filterMap_cons, hc, oalt]
        | some c => simp [List.filterMap_cons, hc, oalt]
      rw [h1, h2, oalt_assoc]
    · have h1 : (sigStep acc s).nodeComment = acc.nodeComment := by simp [sigStep, h]
      have h2 : firstNvComment (s :: rest) = firstNvComment rest := by
        simp [firstNvComment, nvSigs, List.filter_cons, h]
      rw [h1, h2]

/-- The return-signature comment after the loop is the last non-void
signature's comment (the starting value only survives when no non-void
signature exists). -/
theorem foldl_sigStep_rsc : ∀ (sigs : List SigNode) (acc : SigFold),
    (sigs.foldl sigStep acc).returnSignatureComment =
      (match lastNv sigs with
       | some s => s.comment
       | none => acc.returnSignatureComment) := by
  intro sigs
  induction sigs with
  | nil => intro acc; simp [lastNv, nvSigs]
  | cons s rest ih =>
    intro acc
    rw [List.foldl_cons, ih]
    by_cases h : isNonVoidSig s = true
    · have h1 : (sigStep acc s).returnSignatureComment = s.comment := by simp [sigStep, h]
      have h2 : lastNv (s :: rest) = oalt (lastNv rest) (some s) := by
        simp only [lastNv, nvSigs, List.filter_cons, h, if_true, ite_true]
        exact getLast?_cons_oalt s (List.filter isNonVoidSig rest)
      rw [h1, h2]
      cases lastNv rest <;> rfl
    · have h1 : (sigStep acc s).returnSignatureComment = acc.returnSignatureComment := by
        simp [sigStep, h]
      have h2 : lastNv (s :: rest) = lastNv rest := by
        simp [lastNv, nvSigs, List.filter_cons, h]
      rw [h1, h2]

/-- The recorded return type after the loop is the last non-void
signature's type. -/
theorem foldl_sigStep_returnType : ∀ (sigs : List SigNode) (acc : SigFold),
    (sigs.foldl sigStep acc).returnType =
      (match lastNv sigs with
       | some s => s.type
       | none => acc.returnType) := by
  intro sigs
  induction sigs with
  | nil => intro acc; simp [lastNv, nvSigs]
  | cons s rest ih =>
    intro acc
    rw [List.foldl_cons, ih]
    by_cases h : isNonVoidSig s = true
    · have h1 : (sigStep acc s).returnType = s.type := by simp [sigStep, h]
      have h2 : lastNv (s :: rest) = oalt (lastNv rest) (some s) := by
        simp only [lastNv, nvSigs, List.filter_cons, h, if_true, ite_true]
        exact getLast?_cons_oalt s (List.filter isNonVoidSig rest)
      rw [h1, h2]
      cases lastNv rest <;> rfl
    · have h1 : (sigStep acc s).returnType = acc.returnType := by simp [sigStep, h]
      have h2 : lastNv (s :: rest) = lastNv rest := by
        simp [lastNv, nvSigs, List.filter_cons, h]
      rw [h1, h2]

/-- The void signature of the C2 scenario (no comment). -/
def c2sigVoid : SigNode := ⟨none, some (SomeType.intrinsic "void"), none⟩

/-- The non-void signature of the C2 scenario, with comment "Does X". -/
def c2sigX : SigNode :=
  ⟨none, some (SomeType.reference none "Thing" none), some ⟨some "Does X", none, none, none⟩⟩

/-- The C2 scenario method node with signatures [void, non-void]. -/
def c2method : DeclNode :=
  ⟨10, "doThing", kindMethod, none, none, some [c2sigVoid, c2sigX], none, ⟨false⟩⟩

/-- C2 (amended): the node comment is the effective declaration's own
comment, else the comment of the *first* non-void signature carrying one;
the return-specific comment and the recorded return type are both taken
from the *last* non-void signature processed (see `c2_counterexample`:
with several commented non-void signatures the return-specific comment
comes from the last, not the first).  Scenario: a method with a void
uncommented signature and a non-void signature commented "Does X" ends
with `methodInfo.return` holding the non-void type and the node's own
comment "Does X". -/
theorem c2_signature_comments :
    (∀ (init : Option Comment) (sigs : List SigNode),
        (foldSignatures init sigs).nodeComment = oalt init (firstNvComment sigs) ∧
        (foldSignatures init sigs).returnSignatureComment = (lastNv sigs).bind SigNode.comment ∧
        (foldSignatures init sigs).returnType = (lastNv sigs).bind SigNode.type) ∧
    ((walkF 20 c2method (some "api") ⟨"api", "api"⟩ ⟨[], [], [], []⟩).toOption.map
        (fun r => (r.1.comment.bind Comment.shortText, r.1.methodReturn.bind ExtNode.type))) =
      some (some "Does X", some (SomeType.reference none "Thing" none)) := by
  refine ⟨?_, rfl⟩
  intro init sigs
  refine ⟨foldl_sigStep_nodeComment sigs _, ?_, ?_⟩
  · rw [foldSignatures, foldl_sigStep_rsc]
    cases lastNv sigs <;> rfl
  · rw [foldSignatures, foldl_sigStep_returnType]
    cases lastNv sigs <;> rfl

/-- Comment "A". -/
def c2cA : Comment := ⟨some "A", none, none, none⟩

/-- Comment "B". -/
def c2cB : Comment := ⟨some "B", none, none, none⟩

/-- First non-void signature, comment "A". -/
def c2sigA : SigNode := ⟨none, some (SomeType.intrinsic "number"), some c2cA⟩

/-- Second non-void signature, comment "B". -/
def c2sigB : SigNode := ⟨none, some (SomeType.intrinsic "string"), some c2cB⟩

/-- C2 counterexample: with two commented non-void signatures the node
comment is donated by the first ("A"), but the return-specific comment
recorded is the *last* non-void signature's ("B"), refuting the claim
that the first signature with a non-void return type donates the
return-specific comment. -/
theorem c2_counterexample :
    (foldSignatures none [c2sigA, c2sigB]).nodeComment = some c2cA ∧
    (foldSignatures none [c2sigA, c2sigB]).returnSignatureComment = some c2cB ∧
    c2cB ≠ c2cA :=
  ⟨rfl, rfl, by decide⟩

/-- A list whose `getLast?` is `none` is empty. -/
theorem eq_nil_of_getLast?_none {α : Type} {l : List α} (h : l.getLast? = none) : l = [] := by
  cases l with
  | nil => rfl
  | cons a t =>
    rw [getLast?_cons_oalt] at h
    cases ht : t.getLast? with
    | none => rw [ht] at h; cases h
    | some x => rw [ht] at h; cases h

/-- The last element belongs to the list. -/
theorem mem_of_getLast? {α : Type} {l : List α} {a : α} (h : l.getLast? = some a) : a ∈ l := by
  induction l with
  | nil => cases h
  | cons b t ih =>
    rw [getLast?_cons_oalt] at h
    cases ht : t.getLast? with
    | none =>
      rw [ht] at h
      cases h
      exact List.mem_cons_self _ _
    | some x =>
      rw [ht] at h
      cases h
      exact List.mem_cons_of_mem _ (ih ht)

/-- The head belongs to the list. -/
theorem mem_of_head? {α : Type} {l : List α} {a : α} (h : l.head? = some a) : a ∈ l := by
  cases l with
  | nil => cases h
  | cons b t =>
    rw [List.head?_cons] at h
    cases h
    exact List.mem_cons_self _ _

/-- The occurrences of a parameter name in one parameter list, each
upgraded with the given signature tags, in order. -/
def occOfParams (tags : List CommentTag) (ps : List DeclNode) (name : String) : List DeclNode :=
  (ps.filter (fun p => p.name == name)).map (fun p => upgradeParamWithParamSinceTags p tags)

/-- The occurrences contributed by one signature. -/
def occOfSig (s : SigNode) (name : String) : List DeclNode :=
  occOfParams (sigTagsOf s) (s.parameters.getD []) name

/-- The occurrences of a parameter name across all signatures, in
signature order. -/
def paramOccurrences (sigs : List SigNode) (name : String) : List DeclNode :=
  (sigs.map (fun s => occOfSig s name)).flatten

/-- The specification of the surviving `allParams` entry for a name: the
last optional occurrence, or else the first occurrence. -/
def paramUnionSpec (sigs : List SigNode) (name : String) : Option DeclNode :=
  oalt (((paramOccurrences sigs name).filter (fun p => p.flags.isOptional)).getLast?)
       ((paramOccurrences sigs name).head?)

/-- Lookup after one signature's parameter fold: the last optional
occurrence wins, else whatever was stored before, else the first
occurrence of this parameter list. -/
theorem paramsFold_get (tags : List CommentTag) :
    ∀ (ps : List DeclNode) (m : List (String × DeclNode)) (name : String),
      jsGetS (ps.foldl (paramStep tags) m) name =
        oalt ((occOfParams tags ps name).filter (fun p => p.flags.isOptional)).getLast?
          (oalt (jsGetS m name) ((occOfParams tags ps name).head?)) := by
  intro ps
  induction ps with
  | nil =>
    intro m name
    simp only [List.foldl_nil, occOfParams, List.filter_nil, List.map_nil, List.getLast?_nil,
      List.head?_nil]
    cases jsGetS m name <;> rfl
  | cons p rest ih =>
    intro m name
    rw [List.foldl_cons]
    by_cases hname : p.name = name
    · have hocc : occOfParams tags (p :: rest) name =
          upgradeParamWithParamSinceTags p tags :: occOfParams tags rest name := by
        have hb : (p.name == name) = true := by simp [hname]
        simp [occOfParams, List.filter_cons, hb]
      by_cases hcond : ((jsGetS m p.name).isNone = true ∨ p.flags.isOptional = true)
      · have hstep : paramStep tags m p =
            m ++ [(p.name, upgradeParamWithParamSinceTags p tags)] := by
          simp only [paramStep, if_pos hcond]
        rw [hstep, ih, hocc, jsGetS_append, if_pos hname, List.head?_cons]
        by_cases hopt : p.flags.isOptional = true
        · have hfil : (upgradeParamWithParamSinceTags p tags ::
                occOfParams tags rest name).filter (fun q => q.flags.isOptional) =
              upgradeParamWithParamSinceTags p tags ::
                (occOfParams tags rest name).filter (fun q => q.flags.isOptional) := by
            simp [List.filter_cons, upgradeParam_flags, hopt]
          rw [hfil, getLast?_cons_oalt]
          cases ((occOfParams tags rest name).filter (fun q => q.flags.isOptional)).getLast? <;>
            cases jsGetS m name <;> rfl
        · have hg : jsGetS m name = none := by
            rcases hcond with hn | ho
            · rw [← hname]; exact Option.isNone_iff_eq_none.mp hn
            · exact absurd ho hopt
          have hfil : (upgradeParamWithParamSinceTags p tags ::
                occOfParams tags rest name).filter (fun q => q.flags.isOptional) =
              (occOfParams tags rest name).filter (fun q => q.flags.isOptional) := by
            simp [List.filter_cons, upgradeParam_flags, hopt]
          rw [hfil, hg]
          cases ((occOfParams tags rest name).filter (fun q => q.flags.isOptional)).getLast? <;> rfl
      · have hstep : paramStep tags m p = m := by
          simp only [paramStep, if_neg hcond]
        obtain ⟨hsome, hopt⟩ := not_or.mp hcond
        have hge : ∃ e, jsGetS m name = some e := by
          rw [← hname]
          cases hjm : jsGetS m p.name with
          | none => exact absurd (by simp [hjm]) hsome
          | some e => exact ⟨e, rfl⟩
        obtain ⟨e, hge⟩ := hge
        have hfil : (upgradeParamWithParamSinceTags p tags ::
              occOfParams tags rest name).filter (fun q => q.flags.isOptional) =
            (occOfParams tags rest name).filter (fun q => q.flags.isOptional) := by
          simp [List.filter_cons, upgradeParam_flags, eq_false_of_ne_true hopt]
        rw [hstep, ih, hocc, hfil, List.head?_cons, hge]
        cases ((occOfParams tags rest name).filter (fun q => q.flags.isOptional)).getLast? <;> rfl
    · have hocc : occOfParams tags (p :: rest) name = occOfParams tags rest name := by
        have hb : (p.name == name) = false := by simp [hname]
        simp [occOfParams, List.filter_cons, hb]
      have hg : jsGetS (paramStep tags m p) name = jsGetS m name := by
        by_cases hcond : ((jsGetS m p.name).isNone = true ∨ p.flags.isOptional = true)
        · simp only [paramStep, if_pos hcond]
          rw [jsGetS_append, if_neg hname]
        · simp only [paramStep, if_neg hcond]
      rw [ih, hocc, hg]

/-- The parameter fold of one signature inside the loop. -/
def sigParamsFold (m : List (String × DeclNode)) (s : SigNode) : List (String × DeclNode) :=
  (s.parameters.getD []).foldl (paramStep (sigTagsOf s)) m

/-- The `allParams` component of the signature loop only depends on the
parameter folds. -/
theorem foldl_sigStep_allParams : ∀ (sigs : List SigNode) (acc : SigFold),
    (sigs.foldl sigStep acc).allParams = sigs.foldl sigParamsFold acc.allParams := by
  intro sigs
  induction sigs with
  | nil => intro acc; rfl
  | cons s rest ih =>
    intro acc
    rw [List.foldl_cons, List.foldl_cons, ih]
    by_cases h : isNonVoidSig s = true <;> simp [sigStep, sigParamsFold, h]

/-- Fallback-chain shuffle used to compose per-signature lookups. -/
theorem oalt_shuffle {α : Type} (a b c d e : Option α) :
    oalt a (oalt (oalt b (oalt c d)) e) = oalt (oalt a b) (oalt c (oalt d e)) := by
  cases a <;> cases b <;> cases c <;> rfl

/-- Lookup after the whole signature loop: last optional occurrence, else
initial entry, else first occurrence. -/
theorem sigsFold_get : ∀ (sigs : List SigNode) (m : List (String × DeclNode)) (name : String),
    jsGetS (sigs.foldl sigParamsFold m) name =
      oalt ((paramOccurrences sigs name).filter (fun p => p.flags.isOptional)).getLast?
        (oalt (jsGetS m name) ((paramOccurrences sigs name).head?)) := by
  intro sigs
  induction sigs with
  | nil =>
    intro m name
    simp only [List.foldl_nil, paramOccurrences, List.map_nil, List.flatten_nil,
      List.filter_nil, List.getLast?_nil, List.head?_nil]
    cases jsGetS m name <;> rfl
  | cons s rest ih =>
    intro m name
    rw [List.foldl_cons, ih]
    have hone : jsGetS (sigParamsFold m s) name =
        oalt ((occOfSig s name).filter (fun p => p.flags.isOptional)).getLast?
          (oalt (jsGetS m name) ((occOfSig s name).head?)) :=
      paramsFold_get (sigTagsOf s) (s.parameters.getD []) m name
    rw [hone]
    have hocc : paramOccurrences (s :: rest) name =
        occOfSig s name ++ paramOccurrences rest name := by
      simp [paramOccurrences]
    rw [hocc, List.filter_append, getLast?_append_oalt, head?_append_oalt]
    exact oalt_shuffle _ _ _ _ _

/-- C1 (amended): the method-view parameter map unions the signatures'
parameters by name, but a later signature's occurrence overwrites an
earlier entry only when the later occurrence is marked optional: the
surviving entry for a name is the last optional occurrence if the name is
optional in any signature, and otherwise the first occurrence (see
`c1_counterexample`: a later non-optional occurrence does *not*
overwrite).  Consequently an entry is kept optional iff the name is
marked optional in some signature. -/
theorem c1_param_union :
    (∀ (init : Option Comment) (sigs : List SigNode) (name : String),
        jsGetS (foldSignatures init sigs).allParams name = paramUnionSpec sigs name) ∧
    (∀ (init : Option Comment) (sigs : List SigNode) (name : String) (p : DeclNode),
        jsGetS (foldSignatures init sigs).allParams name = some p →
          (p.flags.isOptional = true ↔
            ∃ q ∈ paramOccurrences sigs name, q.flags.isOptional = true)) := by
  have main : ∀ (init : Option Comment) (sigs : List SigNode) (name : String),
      jsGetS (foldSignatures init sigs).allParams name = paramUnionSpec sigs name := by
    intro init sigs name
    rw [foldSignatures, foldl_sigStep_allParams, sigsFold_get]
    rfl
  refine ⟨main, ?_⟩
  intro init sigs name p h
  rw [main init sigs name, paramUnionSpec] at h
  cases hL : ((paramOccurrences sigs name).filter (fun q => q.flags.isOptional)).getLast? with
  | some l =>
    rw [hL] at h
    have hp : p = l := by
      have : (some l : Option DeclNode) = some p := h
      exact (Option.some.injEq l p ▸ this).symm
    subst hp
    have hmem := mem_of_getLast? hL
    have hopt := (List.mem_filter.mp hmem).2
    constructor
    · intro _
      exact ⟨p, List.mem_of_mem_filter hmem, by simpa using hopt⟩
    · intro _
      simpa using hopt
  | none =>
    rw [hL] at h
    have hfil := eq_nil_of_getLast?_none hL
    have hmem : p ∈ paramOccurrences sigs name := mem_of_head? h
    constructor
    · intro hp
      exact ⟨p, hmem, hp⟩
    · rintro ⟨q, hq, hqopt⟩
      exfalso
      have : q ∈ (paramOccurrences sigs name).filter (fun r => r.flags.isOptional) :=
        List.mem_filter.mpr ⟨hq, by simpa using hqopt⟩
      rw [hfil] at this
      cases this

/-- Optional parameter `x` of the first signature. -/
def c1x1 : DeclNode :=
  ⟨-1, "x", kindParameter, none, some (SomeType.intrinsic "number"), none, none, ⟨true⟩⟩

/-- Non-optional parameter `x` of the second, later signature. -/
def c1x2 : DeclNode :=
  ⟨-1, "x", kindParameter, none, some (SomeType.intrinsic "string"), none, none, ⟨false⟩⟩

/-- First signature, with optional `x : number`. -/
def c1sig1 : SigNode := ⟨some [c1x1], some (SomeType.intrinsic "void"), none⟩

/-- Second signature, with required `x : string`. -/
def c1sig2 : SigNode := ⟨some [c1x2], some (SomeType.intrinsic "void"), none⟩

/-- C1 counterexample: with an optional `x : number` in the first
signature and a non-optional `x : string` in the later signature, the
surviving method-view entry is the *first* signature's parameter (still
optional, type `number`), not the later signature's — "later signatures
overwrite earlier entries for the same name (last write wins)" fails. -/
theorem c1_counterexample :
    (jsValuesS (foldSignatures none [c1sig1, c1sig2]).allParams).map
        (fun p => (p.name, p.flags.isOptional)) = [("x", true)] ∧
    jsGetS (foldSignatures none [c1sig1, c1sig2]).allParams "x" =
      some (upgradeParamWithParamSinceTags c1x1 []) ∧
    (upgradeParamWithParamSinceTags c1x1 []).type = some (SomeType.intrinsic "number") ∧
    c1x2.flags.isOptional = false ∧
    c1x2.type = some (SomeType.intrinsic "string") :=
  ⟨rfl, rfl, rfl, rfl, rfl⟩

/-- C1 witness: the second conjunct of `c1_param_union` at the concrete
two-signature input, its lookup hypothesis discharged by evaluation. -/
theorem c1_param_union_witness :
    (upgradeParamWithParamSinceTags c1x1 []).flags.isOptional = true ↔
      ∃ q ∈ paramOccurrences [c1sig1, c1sig2] "x", q.flags.isOptional = true :=
  c1_param_union.2 none [c1sig1, c1sig2] "x" (upgradeParamWithParamSinceTags c1x1 []) rfl

/-- State extension produced by one (complete) walk call under page
context `ns`: the visit trace and the id-index log grow by matched
suffixes — the new index keys are exactly the new visited ids greater
than zero, in order — and every new by-name entry carries the context's
page slug. -/
def StExt (ns : NsCtx) (st st2 : St) : Prop :=
  (∃ v i, st2.visited = st.visited ++ v ∧
      st2.indexForReferences = st.indexForReferences ++ i ∧
      i.map (fun x => x.1) = v.filter (fun k => decide (0 < k))) ∧
  (∃ a, st2.allByName = st.allByName ++ a ∧ ∀ x ∈ a, x.2.pageHref = ns.pageHref)

/-- `StExt` is reflexive. -/
theorem stExt_refl (ns : NsCtx) (st : St) : StExt ns st st :=
  ⟨⟨[], [], by simp, by simp, rfl⟩, ⟨[], by simp, by simp⟩⟩

/-- `StExt` composes. -/
theorem stExt_trans {ns : NsCtx} {st1 st2 st3 : St} (h1 : StExt ns st1 st2)
    (h2 : StExt ns st2 st3) : StExt ns st1 st3 := by
  obtain ⟨⟨v1, i1, hv1, hi1, hm1⟩, ⟨a1, ha1, hp1⟩⟩ := h1
  obtain ⟨⟨v2, i2, hv2, hi2, hm2⟩, ⟨a2, ha2, hp2⟩⟩ := h2
  refine ⟨⟨v1 ++ v2, i1 ++ i2, ?_, ?_, ?_⟩, ⟨a1 ++ a2, ?_, ?_⟩⟩
  · rw [hv2, hv1, List.append_assoc]
  · rw [hi2, hi1, List.append_assoc]
  · rw [List.map_append, List.filter_append, hm1, hm2]
  · rw [ha2, ha1, List.append_assoc]
  · intro x hx
    rcases List.mem_append.mp hx with hm | hm
    exacts [hp1 x hm, hp2 x hm]

/-- The `_pageHref` of an insertion snapshot. -/
theorem mkBaseExt_pageHref (n : DeclNode) (q ph : String) :
    (mkBaseExt n q ph).pageHref = ph := rfl

/-- Step 1 only extends the state as `StExt` allows. -/
theorem registerNode_stExt (node : DeclNode) (parent : Option String) (qname : String)
    (ns : NsCtx) (st : St) : StExt ns st (registerNode node parent qname ns st) := by
  unfold registerNode
  cases parent with
  | none =>
    by_cases hid : 0 < node.id
    · rw [if_pos hid]
      refine ⟨⟨[node.id], [(node.id, mkBaseExt node qname ns.pageHref)], rfl, rfl, ?_⟩,
        ⟨[], by simp, by simp⟩⟩
      simp [hid]
    · rw [if_neg hid]
      refine ⟨⟨[node.id], [], rfl, by simp, ?_⟩, ⟨[], by simp, by simp⟩⟩
      simp [hid]
  | some pq =>
    by_cases hid : 0 < node.id
    · rw [if_pos hid]
      refine ⟨⟨[node.id], [(node.id, mkBaseExt node qname ns.pageHref)], rfl, rfl, ?_⟩,
        ⟨[(qname, mkBaseExt node qname ns.pageHref)], rfl, ?_⟩⟩
      · simp [hid]
      · intro x hx
        simp only [List.mem_singleton] at hx
        subst hx
        rfl
    · rw [if_neg hid]
      refine ⟨⟨[node.id], [], rfl, by simp, ?_⟩,
        ⟨[(qname, mkBaseExt node qname ns.pageHref)], rfl, ?_⟩⟩
      · simp [hid]
      · intro x hx
        simp only [List.mem_singleton] at hx
        subst hx
        rfl

/-- Appending a pending reference leaves the `StExt`-relevant state
untouched. -/
theorem StExt_pending (ns : NsCtx) (st : St) (x : ExtNode) :
    StExt ns st {st with pendingReferences := st.pendingReferences ++ [x]} :=
  ⟨⟨[], [], by simp, by simp, rfl⟩, ⟨[], by simp, by simp⟩⟩

/-- Walking a node list only extends the state. -/
theorem walkMany_stExt
    (go : DeclNode → Option String → NsCtx → St → Except String (ExtNode × St))
    (hgo : ∀ n p ns st e st2, go n p ns st = Except.ok (e, st2) → StExt ns st st2) :
    ∀ (l : List DeclNode) (p : Option String) (ns : NsCtx) (st : St) (es : List ExtNode)
      (st2 : St), walkMany go l p ns st = Except.ok (es, st2) → StExt ns st st2 := by
  intro l
  induction l with
  | nil =>
    intro p ns st es st2 h
    simp only [walkMany] at h
    cases h
    exact stExt_refl ns st
  | cons n rest ih =>
    intro p ns st es st2 h
    simp only [walkMany, bind, Except.bind] at h
    split at h
    · cases h
    · rename_i v hg
      split at h
      · cases h
      · rename_i v2 hw
        cases h
        exact stExt_trans (hgo n p ns st v.1 v.2 hg) (ih p ns v.2 v2.1 v2.2 hw)

/-- The reference/event phase only extends the state. -/
theorem refPhase_stExt
    (go : DeclNode → Option String → NsCtx → St → Except String (ExtNode × St))
    (hgo : ∀ n p ns st e st2, go n p ns st = Except.ok (e, st2) → StExt ns st st2)
    (node : DeclNode) (qname : String) (ns : NsCtx) (st : St)
    (out : Option EventInfo × Option (List ExtNode) × St)
    (h : refPhase go node qname ns st = Except.ok out) : StExt ns st out.2.2 := by
  unfold refPhase at h
  simp only [bind, Except.bind, pure, Except.pure] at h
  split at h
  · rename_i rid rname rtargs
    split at h
    · split at h
      · cases h
      · rename_i up hu
        split at h
        · cases h
        · rename_i v hw
          cases h
          exact walkMany_stExt go hgo up.children (some qname) ns st v.1 v.2 hw
    · cases h
      exact StExt_pending ns st (mkBaseExt node qname ns.pageHref)
  · cases h
    exact stExt_refl ns st

/-- The structural-descent phase only extends the state. -/
theorem childrenPhase_stExt
    (go : DeclNode → Option String → NsCtx → St → Except String (ExtNode × St))
    (hgo : ∀ n p ns st e st2, go n p ns st = Except.ok (e, st2) → StExt ns st st2)
    (eff : DeclNode) (qname : String) (ns : NsCtx) (st : St)
    (out : Option (List ExtNode) × St)
    (h : childrenPhase go eff qname ns st = Except.ok out) : StExt ns st out.2 := by
  unfold childrenPhase at h
  simp only [bind, Except.bind, pure, Except.pure] at h
  split at h
  · rename_i chs
    split at h
    · cases h
      exact stExt_refl ns st
    · split at h
      · cases h
        exact stExt_refl ns st
      · split at h
        · cases h
        · rename_i v hw
          cases h
          exact walkMany_stExt go hgo _ (some qname) ns st v.1 v.2 hw
  · cases h
    exact stExt_refl ns st

/-- The callable-descent phase only extends the state. -/
theorem sigsPhase_stExt
    (go : DeclNode → Option String → NsCtx → St → Except String (ExtNode × St))
    (hgo : ∀ n p ns st e st2, go n p ns st = Except.ok (e, st2) → StExt ns st st2)
    (eff : DeclNode) (qname : String) (ns : NsCtx) (st : St)
    (out : Option (List ExtNode × Option ExtNode × Bool) × Option Comment × Bool × St)
    (h : sigsPhase go eff qname ns st = Except.ok out) : StExt ns st out.2.2.2 := by
  unfold sigsPhase at h
  simp only [bind, Except.bind, pure, Except.pure] at h
  split at h
  · rename_i sigs
    split at h
    · cases h
      exact stExt_refl ns st
    · split at h
      · rename_i rt hrt
        split at h
        · cases h
        · rename_i v hw
          cases h
          exact walkMany_stExt go hgo _ (some qname) ns st v.1 v.2 hw
      · split at h
        · cases h
        · rename_i v hw
          cases h
          exact walkMany_stExt go hgo _ (some qname) ns st v.1 v.2 hw
  · cases h
    exact stExt_refl ns st

/-- The composite-type phase only extends the state. -/
theorem compositePhase_stExt
    (go : DeclNode → Option String → NsCtx → St → Except String (ExtNode × St))
    (hgo : ∀ n p ns st e st2, go n p ns st = Except.ok (e, st2) → StExt ns st st2)
    (hasEvent : Bool) (eff : DeclNode) (qname : String) (ns : NsCtx) (st : St)
    (out : Option (List ExtNode) × St)
    (h : compositePhase go hasEvent eff qname ns st = Except.ok out) : StExt ns st out.2 := by
  unfold compositePhase at h
  simp only [bind, Except.bind, pure, Except.pure] at h
  split at h
  · cases h
    exact stExt_refl ns st
  · split at h
    · cases h
      exact stExt_refl ns st
    · rename_i t
      split at h
      · cases h
      · rename_i v hw
        cases h
        exact walkMany_stExt go hgo _ (some qname) ns st v.1 v.2 hw

/-- One walk step only extends the state, provided its recursive calls
do. -/
theorem walkStep_stExt
    (go : DeclNode → Option String → NsCtx → St → Except String (ExtNode × St))
    (dw : DeclNode → DeclNode)
    (hgo : ∀ n p ns st e st2, go n p ns st = Except.ok (e, st2) → StExt ns st st2) :
    ∀ n p ns st e st2, walkStep go dw n p ns st = Except.ok (e, st2) → StExt ns st st2 := by
  intro n p ns st e st2 h
  unfold walkStep at h
  simp only [bind, Except.bind, pure, Except.pure] at h
  split at h
  · cases h
  · rename_i r1 h1
    split at h
    · cases h
    · rename_i r2 h2
      split at h
      · cases h
      · rename_i r3 h3
        split at h
        · cases h
        · rename_i r4 h4
          split at h
          · cases h
          · rename_i enums h5
            cases h
            have e1 := registerNode_stExt n p (qnameOf p n ns) ns st
            have e2 := refPhase_stExt go hgo n _ ns _ _ h1
            have e3 := childrenPhase_stExt go hgo (dw n) _ ns _ _ h2
            have e4 := sigsPhase_stExt go hgo (dw n) _ ns _ _ h3
            have e5 := compositePhase_stExt go hgo r1.1.isSome (dw n) _ ns _ _ h4
            exact stExt_trans e1 (stExt_trans e2 (stExt_trans e3 (stExt_trans e4 e5)))

/-- `Transform.walk` only extends the state: the visit trace and id index
grow in lockstep (new keys are exactly the new positive visited ids) and
every new by-name entry carries the owning page root's slug. -/
theorem walkF_stExt : ∀ (fuel : Nat) (n : DeclNode) (p : Option String) (ns : NsCtx)
    (st : St) (e : ExtNode) (st2 : St),
    walkF fuel n p ns st = Except.ok (e, st2) → StExt ns st st2 := by
  intro fuel
  induction fuel with
  | zero => intro n p ns st e st2 h; cases h
  | succ f ih =>
    intro n p ns st e st2 h
    exact walkStep_stExt (walkF f) (declarationWithF (f + 1)) ih n p ns st e st2 h

/-- State extension produced by the namespace locator: the visit trace
grows by a suffix; the registry grows by entries that each correspond to
a reached node with a non-namespace child and carry the stripped key and
underscore slug; and every reached node with a non-namespace child ends
up registered. -/
def RootsExt (st st2 : RootsSt) : Prop :=
  (∃ v, st2.visitedNs = st.visitedNs ++ v) ∧
  (∃ r, st2.namespaces = st.namespaces ++ r ∧
      ∀ e ∈ r, (e.2.node, e.2.qname) ∈ st2.visitedNs ∧ hasNonNsChild e.2.node = true ∧
        e.1 = stripChrome e.2.qname ∧ e.2.pageHref = dotsToUnderscores e.1) ∧
  (∀ q ∈ st2.visitedNs, q ∈ st.visitedNs ∨ (hasNonNsChild q.1 = true →
      ∃ e ∈ st2.namespaces, e.2.node = q.1 ∧ e.2.qname = q.2))

/-- `RootsExt` is reflexive. -/
theorem rootsExt_refl (st : RootsSt) : RootsExt st st :=
  ⟨⟨[], by simp⟩, ⟨[], by simp, by simp⟩, fun q hq => Or.inl hq⟩

/-- `RootsExt` composes. -/
theorem rootsExt_trans {st1 st2 st3 : RootsSt} (h1 : RootsExt st1 st2)
    (h2 : RootsExt st2 st3) : RootsExt st1 st3 := by
  obtain ⟨⟨v1, hv1⟩, ⟨r1, hr1, hp1⟩, h3rd1⟩ := h1
  obtain ⟨⟨v2, hv2⟩, ⟨r2, hr2, hp2⟩, h3rd2⟩ := h2
  refine ⟨⟨v1 ++ v2, by rw [hv2, hv1, List.append_assoc]⟩,
    ⟨r1 ++ r2, by rw [hr2, hr1, List.append_assoc], ?_⟩, ?_⟩
  · intro e he
    rcases List.mem_append.mp he with hm | hm
    · obtain ⟨hv, hn, hk, hp⟩ := hp1 e hm
      refine ⟨?_, hn, hk, hp⟩
      rw [hv2]
      exact List.mem_append_left _ hv
    · exact hp2 e hm
  · intro q hq
    rcases h3rd2 q hq with hin | himp
    · rcases h3rd1 q hin with hin1 | himp1
      · exact Or.inl hin1
      · refine Or.inr (fun hc => ?_)
        obtain ⟨e, he, hpr⟩ := himp1 hc
        refine ⟨e, ?_, hpr⟩
        rw [hr2]
        exact List.mem_append_left _ he
    · exact Or.inr himp

/-- Folding a conditional recursion over a child list preserves
`RootsExt`. -/
theorem foldl_traverse_rootsExt (go : DeclNode → Option String → RootsSt → RootsSt)
    (hgo : ∀ c q st, RootsExt st (go c q st)) (pq : Option String) :
    ∀ (cs : List DeclNode) (st : RootsSt),
      RootsExt st (cs.foldl
        (fun acc c => if c.kind = kindNamespace then go c pq acc else acc) st) := by
  intro cs
  induction cs with
  | nil => intro st; exact rootsExt_refl st
  | cons c rest ih =>
    intro st
    rw [List.foldl_cons]
    by_cases hk : c.kind = kindNamespace
    · rw [if_pos hk]
      exact rootsExt_trans (hgo c pq st) (ih (go c pq st))
    · rw [if_neg hk]
      exact ih st

/-- One locator step preserves `RootsExt`, provided its recursive calls
do. -/
theorem traverseStep_rootsExt (go : DeclNode → Option String → RootsSt → RootsSt)
    (hgo : ∀ c q st, RootsExt st (go c q st)) (node : DeclNode) (pq : Option String)
    (st : RootsSt) : RootsExt st (traverseStep go node pq st) := by
  have hmid := foldl_traverse_rootsExt go hgo (some (rootQnameOf pq node))
    (node.children.getD [])
    {st with visitedNs := st.visitedNs ++ [(node, rootQnameOf pq node)]}
  obtain ⟨⟨vb, hvb⟩, ⟨rb, hrb, hrprop⟩, hthird⟩ := hmid
  have hAv : ({st with visitedNs := st.visitedNs ++
      [(node, rootQnameOf pq node)]} : RootsSt).visitedNs =
      st.visitedNs ++ [(node, rootQnameOf pq node)] := rfl
  have hAn : ({st with visitedNs := st.visitedNs ++
      [(node, rootQnameOf pq node)]} : RootsSt).namespaces = st.namespaces := rfl
  rw [hAv] at hvb hthird
  rw [hAn] at hrb
  by_cases hc : hasNonNsChild node = true
  · have hstep : traverseStep go node pq st =
        {((node.children.getD []).foldl
            (fun acc c => if c.kind = kindNamespace then go c
              (some (rootQnameOf pq node)) acc else acc)
            {st with visitedNs := st.visitedNs ++ [(node, rootQnameOf pq node)]}) with
          namespaces := ((node.children.getD []).foldl
            (fun acc c => if c.kind = kindNamespace then go c
              (some (rootQnameOf pq node)) acc else acc)
            {st with visitedNs := st.visitedNs ++
              [(node, rootQnameOf pq node)]}).namespaces ++
            [(stripChrome (rootQnameOf pq node),
              ⟨node, rootQnameOf pq node,
               dotsToUnderscores (stripChrome (rootQnameOf pq node))⟩)],
          allByName := ((node.children.getD []).foldl
            (fun acc c => if c.kind = kindNamespace then go c
              (some (rootQnameOf pq node)) acc else acc)
            {st with visitedNs := st.visitedNs ++
              [(node, rootQnameOf pq node)]}).allByName ++
            [(rootQnameOf pq node,
              mkBaseExt node (rootQnameOf pq node)
                (dotsToUnderscores (stripChrome (rootQnameOf pq node))))]} := by
      unfold traverseStep
      rw [if_pos hc]
    rw [hstep]
    refine ⟨⟨(node, rootQnameOf pq node) :: vb, ?_⟩,
      ⟨rb ++ [(stripChrome (rootQnameOf pq node),
        ⟨node, rootQnameOf pq node,
         dotsToUnderscores (stripChrome (rootQnameOf pq node))⟩)], ?_, ?_⟩, ?_⟩
    · show _ = st.visitedNs ++ ((node, rootQnameOf pq node) :: vb)
      rw [hvb, List.append_assoc, List.singleton_append]
    · show _ ++ _ = st.namespaces ++ _
      rw [hrb, List.append_assoc]
    · intro e he
      rcases List.mem_append.mp he with hin | hin
      · obtain ⟨hv, hn, hk, hp⟩ := hrprop e hin
        exact ⟨hv, hn, hk, hp⟩
      · simp only [List.mem_singleton] at hin
        subst hin
        refine ⟨?_, hc, rfl, rfl⟩
        show _ ∈ _
        rw [hvb]
        exact List.mem_append_left _ (List.mem_append_right _ (List.mem_singleton.mpr rfl))
    · intro q hq
      rw [hvb] at hq
      have hreg : (stripChrome (rootQnameOf pq node),
          (⟨node, rootQnameOf pq node,
            dotsToUnderscores (stripChrome (rootQnameOf pq node))⟩ : RootEntry)) ∈
          ((node.children.getD []).foldl
            (fun acc c => if c.kind = kindNamespace then go c
              (some (rootQnameOf pq node)) acc else acc)
            {st with visitedNs := st.visitedNs ++
              [(node, rootQnameOf pq node)]}).namespaces ++
            [(stripChrome (rootQnameOf pq node),
              ⟨node, rootQnameOf pq node,
               dotsToUnderscores (stripChrome (rootQnameOf pq node))⟩)] :=
        List.mem_append_right _ (List.mem_singleton.mpr rfl)
      rcases List.mem_append.mp hq with hq1 | hq2
      · rcases List.mem_append.mp hq1 with hq0 | hqn
        · exact Or.inl hq0
        · simp only [List.mem_singleton] at hqn
          subst hqn
          exact Or.inr (fun _ => ⟨_, hreg, rfl, rfl⟩)
      · have hqB : q ∈ st.visitedNs ++ [(node, rootQnameOf pq node)] ++ vb :=
          List.mem_append_right _ hq2
        rcases hthird q (hvb.symm ▸ hqB) with hin | himp
        · rcases List.mem_append.mp hin with hq0 | hqn
          · exact Or.inl hq0
          · simp only [List.mem_singleton] at hqn
            subst hqn
            exact Or.inr (fun _ => ⟨_, hreg, rfl, rfl⟩)
        · refine Or.inr (fun hcq => ?_)
          obtain ⟨e, he, hpr⟩ := himp hcq
          exact ⟨e, List.mem_append_left _ he, hpr⟩
  · have hstep : traverseStep go node pq st =
        (node.children.getD []).foldl
          (fun acc c => if c.kind = kindNamespace then go c
            (some (rootQnameOf pq node)) acc else acc)
          {st with visitedNs := st.visitedNs ++ [(node, rootQnameOf pq node)]} := by
      unfold traverseStep
      rw [if_neg hc]
    rw [hstep]
    refine ⟨⟨(node, rootQnameOf pq node) :: vb, ?_⟩, ⟨rb, hrb, hrprop⟩, ?_⟩
    · rw [hvb, List.append_assoc, List.singleton_append]
    · intro q hq
      rw [hvb] at hq
      rcases List.mem_append.mp hq with hq1 | hq2
      · rcases List.mem_append.mp hq1 with hq0 | hqn
        · exact Or.inl hq0
        · simp only [List.mem_singleton] at hqn
          subst hqn
          exact Or.inr (fun hcq => absurd hcq hc)
      · have hqB : q ∈ st.visitedNs ++ [(node, rootQnameOf pq node)] ++ vb :=
          List.mem_append_right _ hq2
        rcases hthird q (hvb.symm ▸ hqB) with hin | himp
        · rcases List.mem_append.mp hin with hq0 | hqn
          · exact Or.inl hq0
          · simp only [List.mem_singleton] at hqn
            subst hqn
            exact Or.inr (fun hcq => absurd hcq hc)
        · exact Or.inr himp

/-- The locator's recursion preserves `RootsExt` for every fuel. -/
theorem traverseF_rootsExt : ∀ (fuel : Nat) (node : DeclNode) (pq : Option String)
    (st : RootsSt), RootsExt st (traverseF fuel node pq st) := by
  intro fuel
  induction fuel with
  | zero => intro node pq st; exact rootsExt_refl st
  | succ f ih => intro node pq st; exact traverseStep_rootsExt (traverseF f) ih node pq st

/-- `findNamespaceRoots` satisfies `RootsExt` from the empty state. -/
theorem findNamespaceRoots_rootsExt (fuel : Nat) (project : DeclNode) :
    RootsExt ⟨[], [], []⟩ (findNamespaceRoots fuel project) := by
  unfold findNamespaceRoots
  exact foldl_traverse_rootsExt (traverseF fuel) (traverseF_rootsExt fuel) none
    (project.children.getD []) ⟨[], [], []⟩

/-- C9 (amended): after a complete walk call, the id index grows by
exactly one entry per *visited* node with id > 0 (in visit order) — so
every visited id > 0 is indexed, exactly once per visit and once as a
`Map` key, and no id ≤ 0 ever appears in the index.  Input nodes the
walker never visits (pure-namespace containers and reflection-wrapper
declarations) are not indexed; see `c9_counterexample`. -/
theorem c9_id_index (fuel : Nat) (node : DeclNode) (parent : Option String) (ns : NsCtx)
    (st : St) (e : ExtNode) (st2 : St)
    (h : walkF fuel node parent ns st = Except.ok (e, st2)) :
    ∃ v i, st2.visited = st.visited ++ v ∧
      st2.indexForReferences = st.indexForReferences ++ i ∧
      i.map (fun x => x.1) = v.filter (fun k => decide (0 < k)) :=
  (walkF_stExt fuel node parent ns st e st2 h).1

/-- C9 witness: the id-index theorem applied to the complete walk of the
`alpha.beta` page root. -/
theorem c9_id_index_witness :
    ∃ (e : ExtNode) (st2 : St),
      walkF 20 cBeta none ⟨"alpha.beta", "alpha_beta"⟩ ⟨[], [], [], []⟩ = Except.ok (e, st2) ∧
      ∃ v i, st2.visited = [] ++ v ∧
        st2.indexForReferences = [] ++ i ∧
        i.map (fun x => x.1) = v.filter (fun k => decide (0 < k)) :=
  ⟨_, _, rfl,
    c9_id_index 20 cBeta none ⟨"alpha.beta", "alpha_beta"⟩ ⟨[], [], [], []⟩ _ _ rfl⟩

/-- C9 counterexample: in the nested-namespace input, `alpha` is an input
node with id 1 > 0, yet the pure-namespace container is never walked, so
after the complete run its id has no entry in the id index (while the
walked ids 2 and 3 do) — refuting "for every *input* node with id > 0 the
id index contains exactly one entry". -/
theorem c9_counterexample :
    cAlpha.id = 1 ∧ ((0 : Int) < 1) ∧ cAlpha ∈ cProject.children.getD [] ∧
    (runWalkPhase 20 cProject).toOption.map
        (fun r => (jsGetI r.2.indexForReferences 1).isSome) = some false ∧
    (runWalkPhase 20 cProject).toOption.map
        (fun r => (jsGetI r.2.indexForReferences 2).isSome) = some true ∧
    (runWalkPhase 20 cProject).toOption.map
        (fun r => (jsGetI r.2.indexForReferences 3).isSome) = some true :=
  ⟨rfl, by decide, List.mem_cons_self _ _, rfl, rfl, rfl⟩

/-- C10: every page root registered by the locator has its key equal to
its dotted qualified name with one leading "chrome." removed, and its
page slug is the key with every remaining dot replaced by an underscore;
and during the walk every by-name registration (exactly the nodes visited
with a parent) carries the owning page root's `_pageHref`, unchanged.
The scenario run shows `gamma` inheriting `alpha.beta`'s slug
`alpha_beta`. -/
theorem c10_page_slugs :
    (∀ (fuel : Nat) (proj : DeclNode),
        ∀ e ∈ (findNamespaceRoots fuel proj).namespaces,
          e.1 = stripChrome e.2.qname ∧ e.2.pageHref = dotsToUnderscores e.1) ∧
    (∀ (fuel : Nat) (node : DeclNode) (parent : Option String) (ns : NsCtx) (st : St)
        (e : ExtNode) (st2 : St),
        walkF fuel node parent ns st = Except.ok (e, st2) →
          ∀ x ∈ st2.allByName, x ∈ st.allByName ∨ x.2.pageHref = ns.pageHref) ∧
    (runWalkPhase 20 cProject).toOption.map
        (fun r => r.1.map (fun e => (e.typeProps.getD []).map ExtNode.pageHref)) =
      some [["alpha_beta"]] := by
  refine ⟨?_, ?_, rfl⟩
  · intro fuel proj e he
    obtain ⟨hv, ⟨r, hr, hprop⟩, h3⟩ := findNamespaceRoots_rootsExt fuel proj
    have hr2 : (findNamespaceRoots fuel proj).namespaces = r := by simpa using hr
    rw [hr2] at he
    obtain ⟨_, _, hk, hp⟩ := hprop e he
    exact ⟨hk, hp⟩
  · intro fuel node parent ns st e st2 h x hx
    obtain ⟨_, ⟨a, ha, hpa⟩⟩ := walkF_stExt fuel node parent ns st e st2 h
    rw [ha] at hx
    rcases List.mem_append.mp hx with hm | hm
    · exact Or.inl hm
    · exact Or.inr (hpa x hm)

/-- C10 witness: the walk part applied to the complete walk of the
`alpha.beta` page root (every by-name entry carries the root's slug). -/
theorem c10_page_slugs_witness :
    ∃ (e : ExtNode) (st2 : St),
      walkF 20 cBeta none ⟨"alpha.beta", "alpha_beta"⟩ ⟨[], [], [], []⟩ = Except.ok (e, st2) ∧
      ∀ x ∈ st2.allByName, x ∈ ([] : List (String × ExtNode)) ∨
        x.2.pageHref = "alpha_beta" :=
  ⟨_, _, rfl,
    c10_page_slugs.2.1 20 cBeta none ⟨"alpha.beta", "alpha_beta"⟩ ⟨[], [], [], []⟩ _ _ rfl⟩

/-- C5: every node reached by the namespace locator is registered as a
page root iff at least one of its direct children is not a
Namespace-kind node; pure-namespace containers are still descended
through (the locator reaches `alpha.beta` inside `alpha`).  In the
scenario, `alpha` is not a page root, `alpha.beta` is the sole root, and
`gamma`'s page id is `property-gamma`. -/
theorem c5_namespace_roots :
    (∀ (fuel : Nat) (proj : DeclNode),
        (∀ e ∈ (findNamespaceRoots fuel proj).namespaces,
            (e.2.node, e.2.qname) ∈ (findNamespaceRoots fuel proj).visitedNs ∧
              hasNonNsChild e.2.node = true) ∧
        (∀ q ∈ (findNamespaceRoots fuel proj).visitedNs, hasNonNsChild q.1 = true →
            ∃ e ∈ (findNamespaceRoots fuel proj).namespaces,
              e.2.node = q.1 ∧ e.2.qname = q.2)) ∧
    (findNamespaceRoots 20 cProject).namespaces.map (fun e => e.1) = ["alpha.beta"] ∧
    (findNamespaceRoots 20 cProject).visitedNs.map (fun q => q.2) = ["alpha", "alpha.beta"] ∧
    hasNonNsChild cAlpha = false ∧
    hasNonNsChild cBeta = true ∧
    (runWalkPhase 20 cProject).toOption.map
        (fun r => r.1.map (fun e => (e.typeProps.getD []).map ExtNode.pageId)) =
      some [[some "property-gamma"]] := by
  refine ⟨?_, rfl, rfl, rfl, rfl, rfl⟩
  intro fuel proj
  obtain ⟨hv, ⟨r, hr, hprop⟩, h3⟩ := findNamespaceRoots_rootsExt fuel proj
  have hr2 : (findNamespaceRoots fuel proj).namespaces = r := by simpa using hr
  constructor
  · intro e he
    rw [hr2] at he
    obtain ⟨hva, hn, _, _⟩ := hprop e he
    exact ⟨hva, hn⟩
  · intro q hq hcq
    rcases h3 q hq with hin | himp
    · exact absurd hin (List.not_mem_nil q)
    · exact himp hcq

/-- C5 witness: the registration direction applied to the reached node
`alpha.beta`, which has the non-namespace child `gamma`. -/
theorem c5_namespace_roots_witness :
    ∃ e ∈ (findNamespaceRoots 20 cProject).namespaces,
      e.2.node = cBeta ∧ e.2.qname = "alpha.beta" :=
  (c5_namespace_roots.1 20 cProject).2 (cBeta, "alpha.beta")
    (List.mem_cons_of_mem _ (List.mem_cons_self _ _)) rfl

/-- C2 witness: the fold characterization instantiated at the concrete
two-signature input. -/
theorem c2_signature_comments_witness :
    (foldSignatures none [c2sigA, c2sigB]).nodeComment =
      oalt none (firstNvComment [c2sigA, c2sigB]) ∧
    (foldSignatures none [c2sigA, c2sigB]).returnSignatureComment =
      (lastNv [c2sigA, c2sigB]).bind SigNode.comment ∧
    (foldSignatures none [c2sigA, c2sigB]).returnType =
      (lastNv [c2sigA, c2sigB]).bind SigNode.type :=
  c2_signature_comments.1 none [c2sigA, c2sigB]

/-- C6 witness: the candidate-chain equivalence instantiated at the
scenario id, link and index. -/
theorem c6_resolve_link_witness :
    resolveLink c6idx "foo.bar.zing.Hello" "Bar" =
      (if jsTrim "Bar" = "" then none
       else firstHit c6idx
         (linkCandidates (jsTrim "Bar") ((jsTrim "foo.bar.zing.Hello").length + 1)
           (jsTrim "foo.bar.zing.Hello"))) :=
  c6_resolve_link.1 c6idx "foo.bar.zing.Hello" "Bar"

end DtsParse


